import Mathlib

/-!
Verification of the CircuitSimulator core (`operations.h`, `wire.h`, `simulate.cpp`).

The C++ core represents a synchronous circuit as a graph of expression nodes
(`ExprNode`, a tagged variant with up to three children `a`, `b`, `c`) over named
signals (`Wire`, holding a committed `long long` value plus an optional
combinational definition `comb_expr` and an optional registered definition
`next_expr`).  `simulate` computes the dependency closure of the targets,
optionally snapshots committed values, then for each cycle evaluates every
closure member (memoized per cycle in an `EvalContext`), evaluates every
registered root in the same context, commits all registered results as one
batch, and finally optionally restores the snapshot; histories are returned
keyed by wire name in a `std::map` (name-sorted).

Embedding conventions:
* Wires are identified by a natural number (modelling C++ object identity);
  a `Circuit` is the finite association list of wire ids to their `WireInfo`
  (name, combinational definition, registered definition).  The mutable
  committed values form a separate state `Nat → Int`.
* `long long` values are modelled as `Int` normalised by `wrap64`, i.e.
  two's-complement wraparound modulo `2 ^ 64` into `[-2 ^ 63, 2 ^ 63)`.
  Signed-overflow cases that are undefined behaviour in C++ (e.g. `LLONG_MIN / -1`,
  out-of-range shift amounts) are given the wraparound / zero value here; no
  theorem below depends on those cases.
* The recursive evaluator can diverge on combinational cycles (documented
  undefined behaviour of the source); it is embedded with a fuel parameter,
  `none` meaning the C++ run does not terminate.
* The per-cycle memo cache (`EvalContext::comb_cache`, an `unordered_map`
  keyed by wire identity) is an association list with insert-if-absent
  (`emplace`) semantics.
-/

namespace CircuitSim

/-- Two's-complement wraparound of an integer into the signed 64-bit range
`[-2 ^ 63, 2 ^ 63)`, the value semantics of C++ `long long` arithmetic. -/
def wrap64 (x : Int) : Int := (x + 2 ^ 63) % 2 ^ 64 - 2 ^ 63

/-- `truthy` from `simulate.cpp`: `v != 0 ? 1 : 0`. -/
def truthy (v : Int) : Int := if v ≠ 0 then 1 else 0

/-- The unsigned 64-bit representative of a signed value, used to model C++
bitwise operations on the two's-complement representation. -/
def toBits (x : Int) : Nat := (x % 2 ^ 64).toNat

/-- Unary operator tags of `OpType` (`Neg`, `BitNot`, `LogNot`). -/
inductive UnOp where
  | neg
  | bitNot
  | logNot
  deriving DecidableEq, Repr

/-- Binary operator tags of `OpType` whose evaluation is strict in both
operands (left operand evaluated first).  `Div`, `Mod`, `LogAnd`, `LogOr`
have bespoke evaluation order / short-circuiting and are separate `Expr`
constructors. -/
inductive BinOp where
  | add
  | sub
  | mul
  | bitAnd
  | bitOr
  | bitXor
  | shl
  | shr
  | eq
  | ne
  | lt
  | le
  | gt
  | ge
  deriving DecidableEq, Repr

/-- Expression graph nodes (`ExprNode` in `operations.h`): constants, wire
references, unary/binary operators, division/modulo (right operand first,
left skipped on zero divisor), short-circuiting logical and/or, and ternary
select. -/
inductive Expr where
  | const (v : Int)
  | wireRef (w : Nat)
  | unary (op : UnOp) (a : Expr)
  | binary (op : BinOp) (a : Expr) (b : Expr)
  | div (a : Expr) (b : Expr)
  | mod (a : Expr) (b : Expr)
  | logAnd (a : Expr) (b : Expr)
  | logOr (a : Expr) (b : Expr)
  | select (a : Expr) (b : Expr) (c : Expr)
  deriving DecidableEq, Repr

/-- Value of a unary operator applied to a signed 64-bit value.
`~v` on two's complement equals `-v - 1`; `!truthy v` is `1` iff `v = 0`. -/
def unOpDenote : UnOp → Int → Int
  | .neg, v => wrap64 (-v)
  | .bitNot, v => wrap64 (-v - 1)
  | .logNot, v => if v = 0 then 1 else 0

/-- Value of a strict binary operator on signed 64-bit values, mirroring the
corresponding `case` arms of `eval_node`.  Bitwise operators act on the
two's-complement representation; shift amounts outside `[0, 64)` are undefined
behaviour in C++ and mapped to `0` here (no claim depends on them). -/
def binOpDenote : BinOp → Int → Int → Int
  | .add, x, y => wrap64 (x + y)
  | .sub, x, y => wrap64 (x - y)
  | .mul, x, y => wrap64 (x * y)
  | .bitAnd, x, y => wrap64 (Int.ofNat (Nat.land (toBits x) (toBits y)))
  | .bitOr, x, y => wrap64 (Int.ofNat (Nat.lor (toBits x) (toBits y)))
  | .bitXor, x, y => wrap64 (Int.ofNat (Nat.xor (toBits x) (toBits y)))
  | .shl, x, y => if 0 ≤ y ∧ y < 64 then wrap64 (x * 2 ^ y.toNat) else 0
  | .shr, x, y => if 0 ≤ y ∧ y < 64 then Int.fdiv x (2 ^ y.toNat) else 0
  | .eq, x, y => if x = y then 1 else 0
  | .ne, x, y => if x ≠ y then 1 else 0
  | .lt, x, y => if x < y then 1 else 0
  | .le, x, y => if x ≤ y then 1 else 0
  | .gt, x, y => if y < x then 1 else 0
  | .ge, x, y => if y ≤ x then 1 else 0

/-- The per-wire data of `struct Wire` other than the mutable committed value:
the name, the combinational definition (`comb_expr`) and the registered
definition (`next_expr`). -/
structure WireInfo where
  name : String
  comb : Option Expr
  next : Option Expr
  deriving DecidableEq, Repr

/-- A circuit: the finite family of wire objects, keyed by identity. -/
structure Circuit where
  defs : List (Nat × WireInfo)
  deriving DecidableEq, Repr

/-- Lookup of a wire's static data by identity. -/
def Circuit.find (C : Circuit) (w : Nat) : Option WireInfo :=
  C.defs.lookup w

/-- `w->comb_expr` (none when the wire has no combinational definition). -/
def Circuit.comb (C : Circuit) (w : Nat) : Option Expr :=
  (C.find w).bind (·.comb)

/-- `w->next_expr` (none when the wire has no registered definition). -/
def Circuit.nextE (C : Circuit) (w : Nat) : Option Expr :=
  (C.find w).bind (·.next)

/-- `w->name`. -/
def Circuit.nameOf (C : Circuit) (w : Nat) : String :=
  ((C.find w).map (·.name)).getD ""

/-- Committed values of all wires (`Wire::committed_value`). -/
abbrev State : Type := Nat → Int

/-- The per-cycle memo cache `EvalContext::comb_cache` as an association
list from wire identity to the memoized combinational value. -/
abbrev Cache : Type := List (Nat × Int)

/-- `comb_cache.find(w)`. -/
def lookupCache : Cache → Nat → Option Int
  | [], _ => none
  | (k, v) :: rest, w => if k = w then some v else lookupCache rest w

/-- `comb_cache.emplace(w, v)`: inserts only when the key is absent. -/
def insertCache (c : Cache) (w : Nat) (v : Int) : Cache :=
  match lookupCache c w with
  | some _ => c
  | none => (w, v) :: c

/-- `eval_node` from `simulate.cpp`, with a fuel bound on the recursion depth
(`none` models the C++ stack blowing up on a combinational cycle).  The memo
cache is threaded through in evaluation order.  The `wireRef` case inlines
`wire_value`: committed value when there is no combinational definition,
otherwise memo lookup / evaluate-then-`emplace`.  `div`/`mod` evaluate the
divisor first and skip the dividend entirely on a zero divisor; `logAnd` and
`logOr` short-circuit; `select` evaluates the condition and then exactly the
branch chosen by truthiness. -/
def evalNode (C : Circuit) (σ : State) : Nat → Expr → Cache → Option (Int × Cache)
  | 0, _, _ => none
  | _ + 1, .const v, ctx => some (v, ctx)
  | f + 1, .wireRef w, ctx =>
    match C.comb w with
    | none => some (σ w, ctx)
    | some e =>
      match lookupCache ctx w with
      | some v => some (v, ctx)
      | none =>
        match evalNode C σ f e ctx with
        | none => none
        | some (v, c) => some (v, insertCache c w v)
  | f + 1, .unary op a, ctx =>
    match evalNode C σ f a ctx with
    | none => none
    | some (va, c1) => some (unOpDenote op va, c1)
  | f + 1, .binary op a b, ctx =>
    match evalNode C σ f a ctx with
    | none => none
    | some (va, c1) =>
      match evalNode C σ f b c1 with
      | none => none
      | some (vb, c2) => some (binOpDenote op va vb, c2)
  | f + 1, .div a b, ctx =>
    match evalNode C σ f b ctx with
    | none => none
    | some (d, c1) =>
      if d = 0 then some (0, c1)
      else
        match evalNode C σ f a c1 with
        | none => none
        | some (va, c2) => some (wrap64 (Int.tdiv va d), c2)
  | f + 1, .mod a b, ctx =>
    match evalNode C σ f b ctx with
    | none => none
    | some (d, c1) =>
      if d = 0 then some (0, c1)
      else
        match evalNode C σ f a c1 with
        | none => none
        | some (va, c2) => some (wrap64 (Int.tmod va d), c2)
  | f + 1, .logAnd a b, ctx =>
    match evalNode C σ f a ctx with
    | none => none
    | some (va, c1) =>
      if va = 0 then some (0, c1)
      else
        match evalNode C σ f b c1 with
        | none => none
        | some (vb, c2) => some (truthy vb, c2)
  | f + 1, .logOr a b, ctx =>
    match evalNode C σ f a ctx with
    | none => none
    | some (va, c1) =>
      if va ≠ 0 then some (1, c1)
      else
        match evalNode C σ f b c1 with
        | none => none
        | some (vb, c2) => some (truthy vb, c2)
  | f + 1, .select a b c, ctx =>
    match evalNode C σ f a ctx with
    | none => none
    | some (vc, c1) =>
      if vc ≠ 0 then evalNode C σ f b c1 else evalNode C σ f c c1

/-- `wire_value` from `simulate.cpp`: committed value when the wire has no
combinational definition, otherwise the memoized or freshly computed value of
the combinational root, cached before returning. -/
def wireValue (C : Circuit) (σ : State) (f : Nat) (w : Nat) (ctx : Cache) :
    Option (Int × Cache) :=
  match C.comb w with
  | none => some (σ w, ctx)
  | some e =>
    match lookupCache ctx w with
    | some v => some (v, ctx)
    | none =>
      match evalNode C σ f e ctx with
      | none => none
      | some (v, c) => some (v, insertCache c w v)

/-- Modelled from the spec: the "naive unmemoized evaluation" that claim C5
compares the memoizing engine against — the same expression semantics and
evaluation order as `evalNode`, but with no memo cache at all: every wire
reference re-evaluates its combinational root. -/
def evalPure (C : Circuit) (σ : State) : Nat → Expr → Option Int
  | 0, _ => none
  | _ + 1, .const v => some v
  | f + 1, .wireRef w =>
    match C.comb w with
    | none => some (σ w)
    | some e => evalPure C σ f e
  | f + 1, .unary op a =>
    match evalPure C σ f a with
    | none => none
    | some va => some (unOpDenote op va)
  | f + 1, .binary op a b =>
    match evalPure C σ f a with
    | none => none
    | some va =>
      match evalPure C σ f b with
      | none => none
      | some vb => some (binOpDenote op va vb)
  | f + 1, .div a b =>
    match evalPure C σ f b with
    | none => none
    | some d =>
      if d = 0 then some 0
      else
        match evalPure C σ f a with
        | none => none
        | some va => some (wrap64 (Int.tdiv va d))
  | f + 1, .mod a b =>
    match evalPure C σ f b with
    | none => none
    | some d =>
      if d = 0 then some 0
      else
        match evalPure C σ f a with
        | none => none
        | some va => some (wrap64 (Int.tmod va d))
  | f + 1, .logAnd a b =>
    match evalPure C σ f a with
    | none => none
    | some va =>
      if va = 0 then some 0
      else
        match evalPure C σ f b with
        | none => none
        | some vb => some (truthy vb)
  | f + 1, .logOr a b =>
    match evalPure C σ f a with
    | none => none
    | some va =>
      if va ≠ 0 then some 1
      else
        match evalPure C σ f b with
        | none => none
        | some vb => some (truthy vb)
  | f + 1, .select a b c =>
    match evalPure C σ f a with
    | none => none
    | some vc =>
      if vc ≠ 0 then evalPure C σ f b else evalPure C σ f c

/-- The naive (unmemoized) value of a wire: committed value without a
combinational definition, else the naive value of its combinational root. -/
def wireValuePure (C : Circuit) (σ : State) (f : Nat) (w : Nat) : Option Int :=
  match C.comb w with
  | none => some (σ w)
  | some e => evalPure C σ f e

/-! ### Dependency closure (`gather_from_expr`, `closure_from_targets`) -/

/-- Structural size of an expression, used only as a termination measure. -/
def exprSize : Expr → Nat
  | .const _ => 1
  | .wireRef _ => 1
  | .unary _ a => exprSize a + 1
  | .binary _ a b => exprSize a + exprSize b + 1
  | .div a b => exprSize a + exprSize b + 1
  | .mod a b => exprSize a + exprSize b + 1
  | .logAnd a b => exprSize a + exprSize b + 1
  | .logOr a b => exprSize a + exprSize b + 1
  | .select a b c => exprSize a + exprSize b + exprSize c + 1

/-- A possibly-null expression pointer as a list of zero or one expressions
(`gather_from_expr` returns immediately on a null pointer). -/
def optExpr : Option Expr → List Expr
  | none => []
  | some e => [e]

/-- Total size of a worklist of expressions. -/
def sizeList (l : List Expr) : Nat := (l.map exprSize).sum

/-- All wire references occurring anywhere inside an expression. -/
def exprWires : Expr → List Nat
  | .const _ => []
  | .wireRef w => [w]
  | .unary _ a => exprWires a
  | .binary _ a b => exprWires a ++ exprWires b
  | .div a b => exprWires a ++ exprWires b
  | .mod a b => exprWires a ++ exprWires b
  | .logAnd a b => exprWires a ++ exprWires b
  | .logOr a b => exprWires a ++ exprWires b
  | .select a b c => exprWires a ++ exprWires b ++ exprWires c

/-- Wire references of a possibly-null expression. -/
def optWires : Option Expr → List Nat
  | none => []
  | some e => exprWires e

/-- Wire references occurring in either definition of a wire. -/
def infoWires (i : WireInfo) : List Nat := optWires i.comb ++ optWires i.next

/-- Identities of the wires a circuit defines. -/
def Circuit.dom (C : Circuit) : Finset Nat := (C.defs.map Prod.fst).toFinset

/-- All wire identities the circuit can ever put into a closure: its own
wires plus every reference inside any of their definitions.  This is the
finite universe that bounds the closure iteration. -/
def mentioned (C : Circuit) : Finset Nat :=
  C.dom ∪ (C.defs.map (fun p => infoWires p.2)).flatten.toFinset

theorem lookup_eq_none_of_not_mem_keys {β : Type} (l : List (Nat × β)) (w : Nat)
    (h : w ∉ l.map Prod.fst) : l.lookup w = none := by
  induction l with
  | nil => rfl
  | cons p rest ih =>
    simp only [List.map_cons, List.mem_cons] at h
    push_neg at h
    have hbeq : (w == p.1) = false := beq_eq_false_iff_ne.mpr h.1
    simp only [List.lookup, hbeq]
    exact ih h.2

theorem mem_of_lookup_eq_some {β : Type} (l : List (Nat × β)) (w : Nat) (b : β)
    (h : l.lookup w = some b) : (w, b) ∈ l := by
  induction l with
  | nil => simp [List.lookup] at h
  | cons p rest ih =>
    obtain ⟨k, v⟩ := p
    by_cases hw : w = k
    · have hbeq : (w == k) = true := beq_iff_eq.mpr hw
      simp only [List.lookup, hbeq] at h
      have hb : v = b := by simpa using h
      subst hw
      subst hb
      exact List.mem_cons_self _ _
    · have hbeq : (w == k) = false := beq_eq_false_iff_ne.mpr hw
      simp only [List.lookup, hbeq] at h
      exact List.mem_cons_of_mem _ (ih h)

theorem Circuit.find_eq_none (C : Circuit) (w : Nat) (h : w ∉ C.dom) :
    C.find w = none := by
  apply lookup_eq_none_of_not_mem_keys
  intro hmem
  exact h (by simpa [Circuit.dom] using hmem)

theorem Circuit.comb_eq_none (C : Circuit) (w : Nat) (h : w ∉ C.dom) :
    C.comb w = none := by
  simp [Circuit.comb, Circuit.find_eq_none C w h]

theorem Circuit.nextE_eq_none (C : Circuit) (w : Nat) (h : w ∉ C.dom) :
    C.nextE w = none := by
  simp [Circuit.nextE, Circuit.find_eq_none C w h]

/-- `gather_from_expr` from `simulate.cpp`, in worklist form: the head
expression is examined; a wire reference not yet in the set is inserted and
its two definitions (possibly null) are pushed onto the worklist — exactly the
source's recursion `insert; gather(comb); gather(next)`; all other node kinds
push their non-null children.  `gatherList C [e] s` is the translation of
`gather_from_expr(e, s)`. -/
def gatherList (C : Circuit) : List Expr → Finset Nat → Finset Nat
  | [], s => s
  | .const _ :: rest, s => gatherList C rest s
  | .wireRef w :: rest, s =>
    if w ∈ s then gatherList C rest s
    else gatherList C (optExpr (C.comb w) ++ optExpr (C.nextE w) ++ rest) (insert w s)
  | .unary _ a :: rest, s => gatherList C (a :: rest) s
  | .binary _ a b :: rest, s => gatherList C (a :: b :: rest) s
  | .div a b :: rest, s => gatherList C (a :: b :: rest) s
  | .mod a b :: rest, s => gatherList C (a :: b :: rest) s
  | .logAnd a b :: rest, s => gatherList C (a :: b :: rest) s
  | .logOr a b :: rest, s => gatherList C (a :: b :: rest) s
  | .select a b c :: rest, s => gatherList C (a :: b :: c :: rest) s
termination_by l s => ((C.dom \ s).card, sizeList l)
decreasing_by
  all_goals simp_wf
  all_goals try (apply Prod.Lex.right <;> simp [sizeList, exprSize] <;> omega)
  rename_i hns
  by_cases hw : w ∈ C.dom
  · apply Prod.Lex.left
    apply Finset.card_lt_card
    rw [Finset.ssubset_def]
    constructor
    · intro x hx
      simp only [Finset.mem_sdiff, Finset.mem_insert] at hx ⊢
      exact ⟨hx.1, fun hxs => hx.2 (Or.inr hxs)⟩
    · intro hsub
      have hwmem : w ∈ C.dom \ s := Finset.mem_sdiff.mpr ⟨hw, hns⟩
      have h2 := hsub hwmem
      simp [Finset.mem_sdiff] at h2
  · have hc := Circuit.comb_eq_none C w hw
    have hn := Circuit.nextE_eq_none C w hw
    have hdom : C.dom \ insert w s = C.dom \ s := by
      ext x
      simp only [Finset.mem_sdiff, Finset.mem_insert]
      constructor
      · rintro ⟨h1, h2⟩
        exact ⟨h1, fun hx => h2 (Or.inr hx)⟩
      · rintro ⟨h1, h2⟩
        refine ⟨h1, ?_⟩
        rintro (rfl | hx)
        · exact hw h1
        · exact h2 hx
    rw [hdom, hc, hn]
    apply Prod.Lex.right
    simp [optExpr, sizeList, exprSize]

/-- `gather_from_expr` on a possibly-null root. -/
def gatherOpt (C : Circuit) (e : Option Expr) (s : Finset Nat) : Finset Nat :=
  gatherList C (optExpr e) s

/-- All wire references of a worklist, as a finite set. -/
def wiresOf (l : List Expr) : Finset Nat := (l.map exprWires).flatten.toFinset

theorem gatherList_subset_self (C : Circuit) (l : List Expr) (s : Finset Nat) :
    s ⊆ gatherList C l s := by
  induction l, s using gatherList.induct C with
  | case1 s => rw [gatherList]
  | case2 v rest s ih => rw [gatherList]; exact ih
  | case3 w rest s hmem ih => rw [gatherList, if_pos hmem]; exact ih
  | case4 w rest s hmem ih =>
    rw [gatherList, if_neg hmem]
    exact fun x hx => ih (Finset.mem_insert_of_mem hx)
  | case5 op a rest s ih => rw [gatherList]; exact ih
  | case6 op a b rest s ih => rw [gatherList]; exact ih
  | case7 a b rest s ih => rw [gatherList]; exact ih
  | case8 a b rest s ih => rw [gatherList]; exact ih
  | case9 a b rest s ih => rw [gatherList]; exact ih
  | case10 a b rest s ih => rw [gatherList]; exact ih
  | case11 a b c rest s ih => rw [gatherList]; exact ih

theorem mem_mentioned_of_mem_optWires_comb (C : Circuit) (w x : Nat)
    (hx : x ∈ optWires (C.comb w)) : x ∈ mentioned C := by
  cases hc : C.comb w with
  | none => rw [hc] at hx; simp [optWires] at hx
  | some e =>
    rw [hc] at hx
    unfold Circuit.comb at hc
    cases hf : C.find w with
    | none => rw [hf] at hc; simp at hc
    | some info =>
      rw [hf] at hc
      simp at hc
      have hmem : (w, info) ∈ C.defs := mem_of_lookup_eq_some _ _ _ hf
      simp only [mentioned, Finset.mem_union, List.mem_toFinset, List.mem_flatten]
      right
      refine ⟨infoWires info, ?_, ?_⟩
      · exact List.mem_map.mpr ⟨(w, info), hmem, rfl⟩
      · simp only [infoWires, List.mem_append]
        left
        rw [hc]
        exact hx

theorem mem_mentioned_of_mem_optWires_next (C : Circuit) (w x : Nat)
    (hx : x ∈ optWires (C.nextE w)) : x ∈ mentioned C := by
  cases hc : C.nextE w with
  | none => rw [hc] at hx; simp [optWires] at hx
  | some e =>
    rw [hc] at hx
    unfold Circuit.nextE at hc
    cases hf : C.find w with
    | none => rw [hf] at hc; simp at hc
    | some info =>
      rw [hf] at hc
      simp at hc
      have hmem : (w, info) ∈ C.defs := mem_of_lookup_eq_some _ _ _ hf
      simp only [mentioned, Finset.mem_union, List.mem_toFinset, List.mem_flatten]
      right
      refine ⟨infoWires info, ?_, ?_⟩
      · exact List.mem_map.mpr ⟨(w, info), hmem, rfl⟩
      · simp only [infoWires, List.mem_append]
        right
        rw [hc]
        exact hx

@[simp] theorem wiresOf_nil : wiresOf [] = (∅ : Finset Nat) := rfl

@[simp] theorem wiresOf_cons (e : Expr) (l : List Expr) :
    wiresOf (e :: l) = (exprWires e).toFinset ∪ wiresOf l := by
  simp [wiresOf]

@[simp] theorem wiresOf_append (l1 l2 : List Expr) :
    wiresOf (l1 ++ l2) = wiresOf l1 ∪ wiresOf l2 := by
  simp [wiresOf]

theorem wiresOf_optExpr_comb_subset (C : Circuit) (w : Nat) :
    wiresOf (optExpr (C.comb w)) ⊆ mentioned C := by
  cases hc : C.comb w with
  | none => simp [optExpr]
  | some e =>
    intro x hx
    simp only [optExpr, wiresOf_cons, wiresOf_nil, Finset.union_empty,
      List.mem_toFinset] at hx
    refine mem_mentioned_of_mem_optWires_comb C w x ?_
    rw [hc]
    exact hx

theorem wiresOf_optExpr_next_subset (C : Circuit) (w : Nat) :
    wiresOf (optExpr (C.nextE w)) ⊆ mentioned C := by
  cases hc : C.nextE w with
  | none => simp [optExpr]
  | some e =>
    intro x hx
    simp only [optExpr, wiresOf_cons, wiresOf_nil, Finset.union_empty,
      List.mem_toFinset] at hx
    refine mem_mentioned_of_mem_optWires_next C w x ?_
    rw [hc]
    exact hx

theorem gatherList_subset (C : Circuit) (l : List Expr) (s : Finset Nat) :
    gatherList C l s ⊆ s ∪ wiresOf l ∪ mentioned C := by
  induction l, s using gatherList.induct C with
  | case1 s => rw [gatherList]; exact fun x hx => by simp [hx]
  | case2 v rest s ih =>
    rw [gatherList]
    have hw : wiresOf rest = wiresOf (Expr.const v :: rest) := by
      simp [exprWires]
    rw [← hw]
    exact ih
  | case3 w rest s hmem ih =>
    rw [gatherList, if_pos hmem]
    refine ih.trans fun x hx => ?_
    rcases Finset.mem_union.mp hx with h | hM
    · rcases Finset.mem_union.mp h with hs | hw
      · exact Finset.mem_union_left _ (Finset.mem_union_left _ hs)
      · refine Finset.mem_union_left _ (Finset.mem_union_right _ ?_)
        rw [wiresOf_cons]
        exact Finset.mem_union_right _ hw
    · exact Finset.mem_union_right _ hM
  | case4 w rest s hmem ih =>
    rw [gatherList, if_neg hmem]
    refine ih.trans fun x hx => ?_
    rcases Finset.mem_union.mp hx with h | hM
    · rcases Finset.mem_union.mp h with h | hw
      · rcases Finset.mem_insert.mp h with rfl | hs
        · refine Finset.mem_union_left _ (Finset.mem_union_right _ ?_)
          simp [exprWires]
        · exact Finset.mem_union_left _ (Finset.mem_union_left _ hs)
      · rw [wiresOf_append, wiresOf_append] at hw
        rcases Finset.mem_union.mp hw with h12 | h3
        · rcases Finset.mem_union.mp h12 with h1 | h2
          · exact Finset.mem_union_right _ (wiresOf_optExpr_comb_subset C w h1)
          · exact Finset.mem_union_right _ (wiresOf_optExpr_next_subset C w h2)
        · refine Finset.mem_union_left _ (Finset.mem_union_right _ ?_)
          rw [wiresOf_cons]
          exact Finset.mem_union_right _ h3
    · exact Finset.mem_union_right _ hM
  | case5 op a rest s ih =>
    rw [gatherList]
    have hw : wiresOf (a :: rest) = wiresOf (Expr.unary op a :: rest) := by
      simp [exprWires]
    rw [← hw]
    exact ih
  | case6 op a b rest s ih =>
    rw [gatherList]
    have hw : wiresOf (a :: b :: rest) = wiresOf (Expr.binary op a b :: rest) := by
      simp [exprWires, Finset.union_assoc]
    rw [← hw]
    exact ih
  | case7 a b rest s ih =>
    rw [gatherList]
    have hw : wiresOf (a :: b :: rest) = wiresOf (Expr.div a b :: rest) := by
      simp [exprWires, Finset.union_assoc]
    rw [← hw]
    exact ih
  | case8 a b rest s ih =>
    rw [gatherList]
    have hw : wiresOf (a :: b :: rest) = wiresOf (Expr.mod a b :: rest) := by
      simp [exprWires, Finset.union_assoc]
    rw [← hw]
    exact ih
  | case9 a b rest s ih =>
    rw [gatherList]
    have hw : wiresOf (a :: b :: rest) = wiresOf (Expr.logAnd a b :: rest) := by
      simp [exprWires, Finset.union_assoc]
    rw [← hw]
    exact ih
  | case10 a b rest s ih =>
    rw [gatherList]
    have hw : wiresOf (a :: b :: rest) = wiresOf (Expr.logOr a b :: rest) := by
      simp [exprWires, Finset.union_assoc]
    rw [← hw]
    exact ih
  | case11 a b c rest s ih =>
    rw [gatherList]
    have hw : wiresOf (a :: b :: c :: rest) = wiresOf (Expr.select a b c :: rest) := by
      simp [exprWires, Finset.union_assoc]
    rw [← hw]
    exact ih

/-- One pass of the fixed-point loop in `closure_from_targets`: for every
member of the snapshot, gather from its combinational and registered
definitions into the set. -/
def closureStep (C : Circuit) (s : Finset Nat) : Finset Nat :=
  (s.sort (· ≤ ·)).foldl
    (fun acc w => gatherOpt C (C.nextE w) (gatherOpt C (C.comb w) acc)) s

theorem closureStep_subset_self (C : Circuit) (s : Finset Nat) :
    s ⊆ closureStep C s := by
  unfold closureStep
  generalize s.sort (· ≤ ·) = l
  induction l generalizing s with
  | nil => simp
  | cons w rest ih =>
    simp only [List.foldl_cons]
    intro x hx
    apply ih
    exact gatherList_subset_self _ _ _ (gatherList_subset_self _ _ _ hx)

theorem gatherOpt_comb_subset (C : Circuit) (w : Nat) (s : Finset Nat) :
    gatherOpt C (C.comb w) s ⊆ s ∪ mentioned C := by
  refine (gatherList_subset C _ s).trans fun x hx => ?_
  rcases Finset.mem_union.mp hx with h | hM
  · rcases Finset.mem_union.mp h with hs | hw
    · exact Finset.mem_union_left _ hs
    · exact Finset.mem_union_right _ (wiresOf_optExpr_comb_subset C w hw)
  · exact Finset.mem_union_right _ hM

theorem gatherOpt_next_subset (C : Circuit) (w : Nat) (s : Finset Nat) :
    gatherOpt C (C.nextE w) s ⊆ s ∪ mentioned C := by
  refine (gatherList_subset C _ s).trans fun x hx => ?_
  rcases Finset.mem_union.mp hx with h | hM
  · rcases Finset.mem_union.mp h with hs | hw
    · exact Finset.mem_union_left _ hs
    · exact Finset.mem_union_right _ (wiresOf_optExpr_next_subset C w hw)
  · exact Finset.mem_union_right _ hM

theorem closureStep_subset (C : Circuit) (s : Finset Nat) :
    closureStep C s ⊆ s ∪ mentioned C := by
  unfold closureStep
  generalize s.sort (· ≤ ·) = l
  induction l generalizing s with
  | nil => simp
  | cons w rest ih =>
    simp only [List.foldl_cons]
    refine (ih _).trans ?_
    intro x hx
    simp only [Finset.mem_union] at hx ⊢
    rcases hx with hx | hx
    · have := (gatherOpt_next_subset C w _).trans
        (Finset.union_subset_union_left (gatherOpt_comb_subset C w s)) hx
      simp only [Finset.mem_union] at this
      tauto
    · exact Or.inr hx

/-- The `while (prev != set.size())` fixed-point loop of
`closure_from_targets`: repeat `closureStep` until the set stops growing.
(The C++ loop compares sizes; since the step only ever inserts, size
stability and set stability coincide.) -/
def closureLoop (C : Circuit) (s : Finset Nat) : Finset Nat :=
  let s' := closureStep C s
  if s' = s then s else closureLoop C s'
termination_by ((mentioned C ∪ s) \ s).card
decreasing_by
  rename_i hne
  have hsub : s ⊆ closureStep C s := closureStep_subset_self C s
  have hbnd : closureStep C s ⊆ s ∪ mentioned C := closureStep_subset C s
  apply Finset.card_lt_card
  rw [Finset.ssubset_def]
  constructor
  · intro x hx
    simp only [Finset.mem_sdiff, Finset.mem_union] at hx ⊢
    refine ⟨?_, fun hxs => hx.2 (hsub hxs)⟩
    rcases hx.1 with hx1 | hx1
    · exact Or.inl hx1
    · rcases Finset.mem_union.mp (hbnd hx1) with h | h
      · exact Or.inr h
      · exact Or.inl h
  · intro hsubs
    obtain ⟨x, hxs', hxs⟩ : ∃ x, x ∈ closureStep C s ∧ x ∉ s := by
      by_contra hno
      push_neg at hno
      exact hne (Finset.Subset.antisymm (fun x hx => hno x hx) hsub)
    have hx1 : x ∈ (mentioned C ∪ s) \ s := by
      simp only [Finset.mem_sdiff, Finset.mem_union]
      refine ⟨?_, hxs⟩
      rcases Finset.mem_union.mp (hbnd hxs') with h | h
      · exact absurd h hxs
      · exact Or.inl h
    have hx2 := hsubs hx1
    simp only [Finset.mem_sdiff, Finset.mem_union] at hx2
    exact hx2.2 hxs'

/-- `closure_from_targets` from `simulate.cpp`: insert the non-null targets,
then iterate `closureStep` to a fixed point. -/
def closure_from_targets (C : Circuit) (targets : List (Option Nat)) : Finset Nat :=
  closureLoop C
    (targets.foldl
      (fun s ow => match ow with | some w => insert w s | none => s) ∅)

/-! ### The simulation driver (`simulate`) -/

/-- Point update of the committed-value store (`w->committed_value = v`). -/
def updState (σ : State) (w : Nat) (v : Int) : State :=
  fun w' => if w' = w then v else σ w'

/-- `history[name].push_back(v)`. -/
def pushHist (h : String → List Int) (nm : String) (v : Int) : String → List Int :=
  fun nm' => if nm' = nm then h nm ++ [v] else h nm'

/-- Step (b) of a cycle: for every closure member in iteration order, compute
its current-cycle value via `wire_value` (threading the memo cache) and append
it to its name's history. -/
def evalPhase (C : Circuit) (σ : State) (fuel : Nat) :
    List Nat → Cache → (String → List Int) → Option (Cache × (String → List Int))
  | [], ctx, hist => some (ctx, hist)
  | w :: rest, ctx, hist =>
    match wireValue C σ fuel w ctx with
    | none => none
    | some (v, ctx') => evalPhase C σ fuel rest ctx' (pushHist hist (C.nameOf w) v)

/-- Step (c) of a cycle: for every closure member with a registered
definition, evaluate its root in the same context and record the next value
(`next_values`). -/
def nextPhase (C : Circuit) (σ : State) (fuel : Nat) :
    List Nat → Cache → Option (Cache × List (Nat × Int))
  | [], ctx => some (ctx, [])
  | w :: rest, ctx =>
    match C.nextE w with
    | none => nextPhase C σ fuel rest ctx
    | some e =>
      match evalNode C σ fuel e ctx with
      | none => none
      | some (nv, ctx') =>
        match nextPhase C σ fuel rest ctx' with
        | none => none
        | some (ctx2, ns) => some (ctx2, (w, nv) :: ns)

/-- Step (d) of a cycle: commit every recorded next value to its signal's
committed value. -/
def commitPhase (σ : State) (ns : List (Nat × Int)) : State :=
  ns.foldl (fun σ' p => updState σ' p.1 p.2) σ

/-- One simulation cycle: fresh evaluation context, evaluate-and-record,
evaluate registered roots, batch commit. -/
def simCycle (C : Circuit) (order : List Nat) (fuel : Nat) (σ : State)
    (hist : String → List Int) : Option ((String → List Int) × State) :=
  match evalPhase C σ fuel order [] hist with
  | none => none
  | some (ctx1, hist') =>
    match nextPhase C σ fuel order ctx1 with
    | none => none
    | some (_, ns) => some (hist', commitPhase σ ns)

/-- The `for (int t = 0; t < cycles; ++t)` loop of `simulate`. -/
def simLoop (C : Circuit) (order : List Nat) (fuel : Nat) :
    Nat → State → (String → List Int) → Option ((String → List Int) × State)
  | 0, σ, hist => some (hist, σ)
  | n + 1, σ, hist =>
    match simCycle C order fuel σ hist with
    | none => none
    | some (hist', σ') => simLoop C order fuel n σ' hist'

/-- The key set of the returned `std::map<std::string, ...>`: the names of the
simulated wires, deduplicated and in sorted (lexicographic) order. -/
def sortedNames (C : Circuit) (order : List Nat) : List String :=
  (order.map C.nameOf).toFinset.sort (· ≤ ·)

/-- The body of `simulate` parameterised by the enumeration order of the
closure set (the C++ iterates an `unordered_set` in unspecified order; claim
C9 is exactly that this parameter does not matter).  Returns the name-keyed
histories and the final committed-value store; `none` models a run that never
terminates.  With `restoreState` the snapshot (`σ0` restricted to the closure)
is written back at the end. -/
def simulateOn (C : Circuit) (order : List Nat) (cycles : Nat)
    (restoreState : Bool) (fuel : Nat) (σ0 : State) :
    Option ((List (String × List Int)) × State) :=
  match simLoop C order fuel cycles σ0 (fun _ => []) with
  | none => none
  | some (hist, σN) =>
    let σF := if restoreState then order.foldl (fun σ w => updState σ w (σ0 w)) σN else σN
    some ((sortedNames C order).map (fun nm => (nm, hist nm)), σF)

/-- The canonical enumeration order of the closure used by `simulate` below
(any enumeration of the `unordered_set`; chosen sorted here). -/
def closureOrder (C : Circuit) (targets : List (Option Nat)) : List Nat :=
  (closure_from_targets C targets).sort (· ≤ ·)

/-- `simulate` from `simulate.cpp`: dependency closure, optional snapshot,
`cycles` iterations of evaluate/record/commit, optional restore, histories
keyed by wire name in sorted order. -/
def simulate (C : Circuit) (targets : List (Option Nat)) (cycles : Nat)
    (restoreState : Bool) (fuel : Nat) (σ0 : State) :
    Option ((List (String × List Int)) × State) :=
  simulateOn C (closureOrder C targets) cycles restoreState fuel σ0

/-- The history mapping returned by `simulate` (the C++ return value). -/
def simHist (C : Circuit) (targets : List (Option Nat)) (cycles : Nat)
    (restoreState : Bool) (fuel : Nat) (σ0 : State) :
    Option (List (String × List Int)) :=
  (simulate C targets cycles restoreState fuel σ0).map Prod.fst

/-- The committed-value store after `simulate` returns (the state the C++
leaves behind in the `Wire` objects). -/
def simState (C : Circuit) (targets : List (Option Nat)) (cycles : Nat)
    (restoreState : Bool) (fuel : Nat) (σ0 : State) : Option State :=
  (simulate C targets cycles restoreState fuel σ0).map Prod.snd

/-! ### Basic evaluator lemmas -/

theorem evalNode_succ_wireRef (C : Circuit) (σ : State) (f : Nat) (w : Nat)
    (ctx : Cache) :
    evalNode C σ (f + 1) (.wireRef w) ctx = wireValue C σ f w ctx := rfl

theorem evalPure_mono (C : Circuit) (σ : State) :
    ∀ f e v, evalPure C σ f e = some v → ∀ g, f ≤ g → evalPure C σ g e = some v := by
  intro f
  induction f with
  | zero => intro e v h; simp [evalPure] at h
  | succ f ih =>
    intro e v h g hg
    obtain ⟨g', rfl⟩ : ∃ g', g = g' + 1 := ⟨g - 1, by omega⟩
    have hg' : f ≤ g' := by omega
    cases e with
    | const u => simpa [evalPure] using h
    | wireRef w =>
      simp only [evalPure] at h ⊢
      cases hc : C.comb w with
      | none => rw [hc] at h; exact h
      | some e0 =>
        rw [hc] at h
        exact ih e0 v h g' hg'
    | unary op a =>
      simp only [evalPure] at h ⊢
      cases ha : evalPure C σ f a with
      | none => rw [ha] at h; simp at h
      | some va => rw [ha] at h; rw [ih a va ha g' hg']; exact h
    | binary op a b =>
      simp only [evalPure] at h ⊢
      cases ha : evalPure C σ f a with
      | none => rw [ha] at h; simp at h
      | some va =>
        rw [ha] at h
        rw [ih a va ha g' hg']
        cases hb : evalPure C σ f b with
        | none => rw [hb] at h; simp at h
        | some vb => rw [hb] at h; rw [ih b vb hb g' hg']; exact h
    | div a b =>
      simp only [evalPure] at h ⊢
      cases hb : evalPure C σ f b with
      | none => rw [hb] at h; simp at h
      | some d =>
        rw [hb] at h
        rw [ih b d hb g' hg']
        dsimp only at h ⊢
        by_cases hd : d = 0
        · rw [if_pos hd] at h; rw [if_pos hd]; exact h
        · rw [if_neg hd] at h
          rw [if_neg hd]
          cases ha : evalPure C σ f a with
          | none => rw [ha] at h; simp at h
          | some va => rw [ha] at h; rw [ih a va ha g' hg']; exact h
    | mod a b =>
      simp only [evalPure] at h ⊢
      cases hb : evalPure C σ f b with
      | none => rw [hb] at h; simp at h
      | some d =>
        rw [hb] at h
        rw [ih b d hb g' hg']
        dsimp only at h ⊢
        by_cases hd : d = 0
        · rw [if_pos hd] at h; rw [if_pos hd]; exact h
        · rw [if_neg hd] at h
          rw [if_neg hd]
          cases ha : evalPure C σ f a with
          | none => rw [ha] at h; simp at h
          | some va => rw [ha] at h; rw [ih a va ha g' hg']; exact h
    | logAnd a b =>
      simp only [evalPure] at h ⊢
      cases ha : evalPure C σ f a with
      | none => rw [ha] at h; simp at h
      | some va =>
        rw [ha] at h
        rw [ih a va ha g' hg']
        dsimp only at h ⊢
        by_cases hz : va = 0
        · rw [if_pos hz] at h; rw [if_pos hz]; exact h
        · rw [if_neg hz] at h
          rw [if_neg hz]
          cases hb : evalPure C σ f b with
          | none => rw [hb] at h; simp at h
          | some vb => rw [hb] at h; rw [ih b vb hb g' hg']; exact h
    | logOr a b =>
      simp only [evalPure] at h ⊢
      cases ha : evalPure C σ f a with
      | none => rw [ha] at h; simp at h
      | some va =>
        rw [ha] at h
        rw [ih a va ha g' hg']
        dsimp only at h ⊢
        by_cases hz : va ≠ 0
        · rw [if_pos hz] at h; rw [if_pos hz]; exact h
        · rw [if_neg hz] at h
          rw [if_neg hz]
          cases hb : evalPure C σ f b with
          | none => rw [hb] at h; simp at h
          | some vb => rw [hb] at h; rw [ih b vb hb g' hg']; exact h
    | select a b c =>
      simp only [evalPure] at h ⊢
      cases ha : evalPure C σ f a with
      | none => rw [ha] at h; simp at h
      | some vc =>
        rw [ha] at h
        rw [ih a vc ha g' hg']
        dsimp only at h ⊢
        by_cases hz : vc ≠ 0
        · rw [if_pos hz] at h
          rw [if_pos hz]
          cases hbv : evalPure C σ f b with
          | none => rw [hbv] at h; simp at h
          | some vb => rw [hbv] at h; rw [ih b vb hbv g' hg']; exact h
        · rw [if_neg hz] at h
          rw [if_neg hz]
          cases hcv : evalPure C σ f c with
          | none => rw [hcv] at h; simp at h
          | some vcc => rw [hcv] at h; rw [ih c vcc hcv g' hg']; exact h

theorem evalPure_det (C : Circuit) (σ : State) (f g : Nat) (e : Expr) (v v' : Int)
    (h1 : evalPure C σ f e = some v) (h2 : evalPure C σ g e = some v') : v = v' := by
  have h1' := evalPure_mono C σ f e v h1 (max f g) (le_max_left f g)
  have h2' := evalPure_mono C σ g e v' h2 (max f g) (le_max_right f g)
  rw [h1'] at h2'
  exact Option.some_injective _ h2'

theorem wireValuePure_mono (C : Circuit) (σ : State) (f g : Nat) (w : Nat) (v : Int)
    (h : wireValuePure C σ f w = some v) (hg : f ≤ g) :
    wireValuePure C σ g w = some v := by
  unfold wireValuePure at h ⊢
  cases hc : C.comb w with
  | none => rw [hc] at h; exact h
  | some e => rw [hc] at h; exact evalPure_mono C σ f e v h g hg

theorem wireValuePure_det (C : Circuit) (σ : State) (f g : Nat) (w : Nat) (v v' : Int)
    (h1 : wireValuePure C σ f w = some v) (h2 : wireValuePure C σ g w = some v') :
    v = v' := by
  unfold wireValuePure at h1 h2
  cases hc : C.comb w with
  | none =>
    rw [hc] at h1 h2
    rw [← Option.some_injective _ h1, ← Option.some_injective _ h2]
  | some e =>
    rw [hc] at h1 h2
    exact evalPure_det C σ f g e v v' h1 h2

/-! ### Memoization coherence -/

/-- A cache is good when every entry records the wire's naive combinational
value in the current committed state. -/
def GoodCache (C : Circuit) (σ : State) (c : Cache) : Prop :=
  ∀ w v, lookupCache c w = some v → ∃ f, wireValuePure C σ f w = some v

/-- `c'` contains every entry of `c`. -/
def CacheExtends (c c' : Cache) : Prop :=
  ∀ w v, lookupCache c w = some v → lookupCache c' w = some v

theorem cacheExtends_refl (c : Cache) : CacheExtends c c := fun _ _ h => h

theorem cacheExtends_trans {c1 c2 c3 : Cache} (h1 : CacheExtends c1 c2)
    (h2 : CacheExtends c2 c3) : CacheExtends c1 c3 :=
  fun w v h => h2 w v (h1 w v h)

theorem goodCache_nil (C : Circuit) (σ : State) : GoodCache C σ [] := by
  intro w v h
  simp [lookupCache] at h

theorem lookupCache_insert (c : Cache) (w : Nat) (v : Int)
    (hw : lookupCache c w = none) (w' : Nat) :
    lookupCache (insertCache c w v) w' =
      if w = w' then some v else lookupCache c w' := by
  simp [insertCache, hw, lookupCache]

/-- Soundness of the memoizing evaluator relative to the naive one: starting
from a good cache, any produced value is the naive value of the same
expression, the final cache is good, and the cache only grows. -/
theorem evalNode_sound (C : Circuit) (σ : State) :
    ∀ f e ctx v ctx', GoodCache C σ ctx →
      evalNode C σ f e ctx = some (v, ctx') →
      (∃ g, evalPure C σ g e = some v) ∧ GoodCache C σ ctx' ∧ CacheExtends ctx ctx' := by
  intro f
  induction f with
  | zero => intro e ctx v ctx' _ h; simp [evalNode] at h
  | succ f ih =>
    intro e ctx v ctx' hg h
    cases e with
    | const u =>
      simp only [evalNode, Option.some.injEq, Prod.mk.injEq] at h
      obtain ⟨rfl, rfl⟩ := h
      exact ⟨⟨1, by simp [evalPure]⟩, hg, cacheExtends_refl _⟩
    | wireRef w =>
      simp only [evalNode] at h
      cases hc : C.comb w with
      | none =>
        rw [hc] at h
        simp only [Option.some.injEq, Prod.mk.injEq] at h
        obtain ⟨rfl, rfl⟩ := h
        exact ⟨⟨1, by simp [evalPure, hc]⟩, hg, cacheExtends_refl _⟩
      | some e0 =>
        rw [hc] at h
        cases hl : lookupCache ctx w with
        | some v0 =>
          rw [hl] at h
          dsimp only at h
          simp only [Option.some.injEq, Prod.mk.injEq] at h
          obtain ⟨rfl, rfl⟩ := h
          obtain ⟨g, hgc⟩ := hg w v0 hl
          unfold wireValuePure at hgc
          rw [hc] at hgc
          refine ⟨⟨g + 1, ?_⟩, hg, cacheExtends_refl _⟩
          simp only [evalPure, hc]
          exact hgc
        | none =>
          rw [hl] at h
          dsimp only at h
          cases he : evalNode C σ f e0 ctx with
          | none => rw [he] at h; simp at h
          | some p =>
            obtain ⟨v1, c1⟩ := p
            rw [he] at h
            dsimp only at h
            simp only [Option.some.injEq, Prod.mk.injEq] at h
            obtain ⟨rfl, rfl⟩ := h
            obtain ⟨⟨g, hpure⟩, hgood1, hext1⟩ := ih e0 ctx v1 c1 hg he
            have hwv : ∃ gg, wireValuePure C σ gg w = some v1 :=
              ⟨g, by unfold wireValuePure; rw [hc]; exact hpure⟩
            refine ⟨⟨g + 1, by simp only [evalPure, hc]; exact hpure⟩, ?_, ?_⟩
            · cases hl1 : lookupCache c1 w with
              | some u =>
                intro w' v' hl'
                rw [show insertCache c1 w v1 = c1 from by simp [insertCache, hl1]] at hl'
                exact hgood1 w' v' hl'
              | none =>
                intro w' v' hl'
                rw [lookupCache_insert c1 w v1 hl1 w'] at hl'
                by_cases hww : w = w'
                · subst hww
                  rw [if_pos rfl] at hl'
                  obtain rfl : v1 = v' := Option.some_injective _ hl'
                  exact hwv
                · rw [if_neg hww] at hl'
                  exact hgood1 w' v' hl'
            · cases hl1 : lookupCache c1 w with
              | some u =>
                intro w' v' hl'
                rw [show insertCache c1 w v1 = c1 from by simp [insertCache, hl1]]
                exact hext1 w' v' hl'
              | none =>
                intro w' v' hl'
                rw [lookupCache_insert c1 w v1 hl1 w']
                by_cases hww : w = w'
                · subst hww
                  rw [hl] at hl'
                  simp at hl'
                · rw [if_neg hww]
                  exact hext1 w' v' hl'
    | unary op a =>
      simp only [evalNode] at h
      cases ha : evalNode C σ f a ctx with
      | none => rw [ha] at h; simp at h
      | some p =>
        obtain ⟨va, c1⟩ := p
        rw [ha] at h
        dsimp only at h
        simp only [Option.some.injEq, Prod.mk.injEq] at h
        obtain ⟨rfl, rfl⟩ := h
        obtain ⟨⟨g, hpure⟩, hgood1, hext1⟩ := ih a ctx va c1 hg ha
        exact ⟨⟨g + 1, by simp only [evalPure, hpure]⟩, hgood1, hext1⟩
    | binary op a b =>
      simp only [evalNode] at h
      cases ha : evalNode C σ f a ctx with
      | none => rw [ha] at h; simp at h
      | some p =>
        obtain ⟨va, c1⟩ := p
        rw [ha] at h
        dsimp only at h
        cases hb : evalNode C σ f b c1 with
        | none => rw [hb] at h; simp at h
        | some q =>
          obtain ⟨vb, c2⟩ := q
          rw [hb] at h
          dsimp only at h
          simp only [Option.some.injEq, Prod.mk.injEq] at h
          obtain ⟨rfl, rfl⟩ := h
          obtain ⟨⟨ga, hpa⟩, hgood1, hext1⟩ := ih a ctx va c1 hg ha
          obtain ⟨⟨gb, hpb⟩, hgood2, hext2⟩ := ih b c1 vb c2 hgood1 hb
          refine ⟨⟨max ga gb + 1, ?_⟩, hgood2, cacheExtends_trans hext1 hext2⟩
          have hpa' := evalPure_mono C σ ga a va hpa (max ga gb) (le_max_left _ _)
          have hpb' := evalPure_mono C σ gb b vb hpb (max ga gb) (le_max_right _ _)
          simp only [evalPure, hpa', hpb']
    | div a b =>
      simp only [evalNode] at h
      cases hb : evalNode C σ f b ctx with
      | none => rw [hb] at h; simp at h
      | some p =>
        obtain ⟨d, c1⟩ := p
        rw [hb] at h
        dsimp only at h
        obtain ⟨⟨gb, hpb⟩, hgood1, hext1⟩ := ih b ctx d c1 hg hb
        by_cases hd : d = 0
        · rw [if_pos hd] at h
          simp only [Option.some.injEq, Prod.mk.injEq] at h
          obtain ⟨rfl, rfl⟩ := h
          subst hd
          refine ⟨⟨gb + 1, ?_⟩, hgood1, hext1⟩
          simp [evalPure, hpb]
        · rw [if_neg hd] at h
          cases ha : evalNode C σ f a c1 with
          | none => rw [ha] at h; simp at h
          | some q =>
            obtain ⟨va, c2⟩ := q
            rw [ha] at h
            dsimp only at h
            simp only [Option.some.injEq, Prod.mk.injEq] at h
            obtain ⟨rfl, rfl⟩ := h
            obtain ⟨⟨ga, hpa⟩, hgood2, hext2⟩ := ih a c1 va c2 hgood1 ha
            refine ⟨⟨max ga gb + 1, ?_⟩, hgood2, cacheExtends_trans hext1 hext2⟩
            have hpa' := evalPure_mono C σ ga a va hpa (max ga gb) (le_max_left _ _)
            have hpb' := evalPure_mono C σ gb b d hpb (max ga gb) (le_max_right _ _)
            simp only [evalPure, hpa', hpb']
            rw [if_neg hd]
    | mod a b =>
      simp only [evalNode] at h
      cases hb : evalNode C σ f b ctx with
      | none => rw [hb] at h; simp at h
      | some p =>
        obtain ⟨d, c1⟩ := p
        rw [hb] at h
        dsimp only at h
        obtain ⟨⟨gb, hpb⟩, hgood1, hext1⟩ := ih b ctx d c1 hg hb
        by_cases hd : d = 0
        · rw [if_pos hd] at h
          simp only [Option.some.injEq, Prod.mk.injEq] at h
          obtain ⟨rfl, rfl⟩ := h
          subst hd
          refine ⟨⟨gb + 1, ?_⟩, hgood1, hext1⟩
          simp [evalPure, hpb]
        · rw [if_neg hd] at h
          cases ha : evalNode C σ f a c1 with
          | none => rw [ha] at h; simp at h
          | some q =>
            obtain ⟨va, c2⟩ := q
            rw [ha] at h
            dsimp only at h
            simp only [Option.some.injEq, Prod.mk.injEq] at h
            obtain ⟨rfl, rfl⟩ := h
            obtain ⟨⟨ga, hpa⟩, hgood2, hext2⟩ := ih a c1 va c2 hgood1 ha
            refine ⟨⟨max ga gb + 1, ?_⟩, hgood2, cacheExtends_trans hext1 hext2⟩
            have hpa' := evalPure_mono C σ ga a va hpa (max ga gb) (le_max_left _ _)
            have hpb' := evalPure_mono C σ gb b d hpb (max ga gb) (le_max_right _ _)
            simp only [evalPure, hpa', hpb']
            rw [if_neg hd]
    | logAnd a b =>
      simp only [evalNode] at h
      cases ha : evalNode C σ f a ctx with
      | none => rw [ha] at h; simp at h
      | some p =>
        obtain ⟨va, c1⟩ := p
        rw [ha] at h
        dsimp only at h
        obtain ⟨⟨ga, hpa⟩, hgood1, hext1⟩ := ih a ctx va c1 hg ha
        by_cases hz : va = 0
        · rw [if_pos hz] at h
          simp only [Option.some.injEq, Prod.mk.injEq] at h
          obtain ⟨rfl, rfl⟩ := h
          subst hz
          refine ⟨⟨ga + 1, ?_⟩, hgood1, hext1⟩
          simp [evalPure, hpa]
        · rw [if_neg hz] at h
          cases hb : evalNode C σ f b c1 with
          | none => rw [hb] at h; simp at h
          | some q =>
            obtain ⟨vb, c2⟩ := q
            rw [hb] at h
            dsimp only at h
            simp only [Option.some.injEq, Prod.mk.injEq] at h
            obtain ⟨rfl, rfl⟩ := h
            obtain ⟨⟨gb, hpb⟩, hgood2, hext2⟩ := ih b c1 vb c2 hgood1 hb
            refine ⟨⟨max ga gb + 1, ?_⟩, hgood2, cacheExtends_trans hext1 hext2⟩
            have hpa' := evalPure_mono C σ ga a va hpa (max ga gb) (le_max_left _ _)
            have hpb' := evalPure_mono C σ gb b vb hpb (max ga gb) (le_max_right _ _)
            simp only [evalPure, hpa', hpb']
            rw [if_neg hz]
    | logOr a b =>
      simp only [evalNode] at h
      cases ha : evalNode C σ f a ctx with
      | none => rw [ha] at h; simp at h
      | some p =>
        obtain ⟨va, c1⟩ := p
        rw [ha] at h
        dsimp only at h
        obtain ⟨⟨ga, hpa⟩, hgood1, hext1⟩ := ih a ctx va c1 hg ha
        by_cases hz : va ≠ 0
        · rw [if_pos hz] at h
          simp only [Option.some.injEq, Prod.mk.injEq] at h
          obtain ⟨rfl, rfl⟩ := h
          refine ⟨⟨ga + 1, ?_⟩, hgood1, hext1⟩
          simp only [evalPure, hpa]
          rw [if_pos hz]
        · rw [if_neg hz] at h
          cases hb : evalNode C σ f b c1 with
          | none => rw [hb] at h; simp at h
          | some q =>
            obtain ⟨vb, c2⟩ := q
            rw [hb] at h
            dsimp only at h
            simp only [Option.some.injEq, Prod.mk.injEq] at h
            obtain ⟨rfl, rfl⟩ := h
            obtain ⟨⟨gb, hpb⟩, hgood2, hext2⟩ := ih b c1 vb c2 hgood1 hb
            refine ⟨⟨max ga gb + 1, ?_⟩, hgood2, cacheExtends_trans hext1 hext2⟩
            have hpa' := evalPure_mono C σ ga a va hpa (max ga gb) (le_max_left _ _)
            have hpb' := evalPure_mono C σ gb b vb hpb (max ga gb) (le_max_right _ _)
            simp only [evalPure, hpa', hpb']
            rw [if_neg hz]
    | select a b c =>
      simp only [evalNode] at h
      cases ha : evalNode C σ f a ctx with
      | none => rw [ha] at h; simp at h
      | some p =>
        obtain ⟨vc, c1⟩ := p
        rw [ha] at h
        dsimp only at h
        obtain ⟨⟨ga, hpa⟩, hgood1, hext1⟩ := ih a ctx vc c1 hg ha
        by_cases hz : vc ≠ 0
        · rw [if_pos hz] at h
          obtain ⟨⟨gb, hpb⟩, hgood2, hext2⟩ := ih b c1 v ctx' hgood1 h
          refine ⟨⟨max ga gb + 1, ?_⟩, hgood2, cacheExtends_trans hext1 hext2⟩
          have hpa' := evalPure_mono C σ ga a vc hpa (max ga gb) (le_max_left _ _)
          have hpb' := evalPure_mono C σ gb b v hpb (max ga gb) (le_max_right _ _)
          simp only [evalPure, hpa', hpb']
          rw [if_pos hz]
        · rw [if_neg hz] at h
          obtain ⟨⟨gc, hpc⟩, hgood2, hext2⟩ := ih c c1 v ctx' hgood1 h
          refine ⟨⟨max ga gc + 1, ?_⟩, hgood2, cacheExtends_trans hext1 hext2⟩
          have hpa' := evalPure_mono C σ ga a vc hpa (max ga gc) (le_max_left _ _)
          have hpc' := evalPure_mono C σ gc c v hpc (max ga gc) (le_max_right _ _)
          simp only [evalPure, hpa', hpc']
          rw [if_neg hz]

/-- Soundness of `wire_value`: same statement lifted to the per-wire entry
point used by the simulation driver. -/
theorem wireValue_sound (C : Circuit) (σ : State) (f : Nat) (w : Nat)
    (ctx : Cache) (v : Int) (ctx' : Cache) (hg : GoodCache C σ ctx)
    (h : wireValue C σ f w ctx = some (v, ctx')) :
    (∃ g, wireValuePure C σ g w = some v) ∧ GoodCache C σ ctx' ∧ CacheExtends ctx ctx' := by
  rw [← evalNode_succ_wireRef] at h
  obtain ⟨⟨g, hpure⟩, hgood, hext⟩ := evalNode_sound C σ (f + 1) (.wireRef w) ctx v ctx' hg h
  refine ⟨?_, hgood, hext⟩
  obtain ⟨g', rfl⟩ : ∃ g', g = g' + 1 := by
    cases g with
    | zero => simp [evalPure] at hpure
    | succ g' => exact ⟨g', rfl⟩
  refine ⟨g', ?_⟩
  unfold wireValuePure
  simp only [evalPure] at hpure
  cases hc : C.comb w with
  | none => rw [hc] at hpure; exact hpure
  | some e0 => rw [hc] at hpure; exact hpure

/-! ### Claims C3, C4, C8 -/

/-- A one-wire circuit whose combinational definition references itself
(`w = w;` in the source's builder syntax): the documented
undefined-behaviour case whose evaluation never terminates. -/
def divergingCircuit : Circuit := ⟨[(0, ⟨"w", some (.wireRef 0), none⟩)]⟩

theorem divergingCircuit_eval_none (σ : State) :
    ∀ g, evalNode divergingCircuit σ g (.wireRef 0) [] = none := by
  intro g
  induction g with
  | zero => rfl
  | succ g ih =>
    have hcc : divergingCircuit.comb 0 = some (.wireRef 0) := rfl
    simp only [evalNode, hcc, lookupCache, ih]

/-- **C4.** For every division or modulo node whose divisor operand evaluates
to `0`, evaluation returns `0` and never raises an error, for all values of
the dividend: `eval_node` evaluates the divisor first and, when it is zero,
returns `0` without even evaluating the dividend (so the result holds for
every dividend expression, whatever it would evaluate to). -/
theorem div_mod_by_zero_yields_zero (C : Circuit) (σ : State) (f : Nat)
    (a b : Expr) (ctx ctx1 : Cache)
    (hb : evalNode C σ f b ctx = some (0, ctx1)) :
    evalNode C σ (f + 1) (.div a b) ctx = some (0, ctx1) ∧
    evalNode C σ (f + 1) (.mod a b) ctx = some (0, ctx1) := by
  constructor <;> simp [evalNode, hb]

theorem div_mod_by_zero_yields_zero_witness :
    evalNode ⟨[]⟩ (fun _ => 0) 2 (.div (.const 5) (.const 0)) [] = some (0, []) ∧
    evalNode ⟨[]⟩ (fun _ => 0) 2 (.mod (.const 5) (.const 0)) [] = some (0, []) :=
  div_mod_by_zero_yields_zero ⟨[]⟩ (fun _ => 0) 1 (.const 5) (.const 0) [] []
    (by decide)

theorem wrap64_spec (z : Int) :
    wrap64 z % 2 ^ 64 = z % 2 ^ 64 ∧ -2 ^ 63 ≤ wrap64 z ∧ wrap64 z < 2 ^ 63 := by
  unfold wrap64
  omega

/-- **C8.** The arithmetic operators `add`, `sub`, `mul` operate on signed
64-bit values and wrap around modulo `2 ^ 64` on overflow — no saturation and
no trap (evaluation always returns a value): the result is congruent to the
exact integer result modulo `2 ^ 64` and lies in `[-2 ^ 63, 2 ^ 63)`; in
particular adding `1` to the maximum signed 64-bit value `2 ^ 63 - 1` yields
the minimum signed 64-bit value `-2 ^ 63`. -/
theorem arith_ops_wrap_mod_2_64 (C : Circuit) (σ : State) (f : Nat)
    (x y : Int) (ctx : Cache) :
    (evalNode C σ (f + 2) (.binary .add (.const x) (.const y)) ctx
        = some (wrap64 (x + y), ctx)
      ∧ evalNode C σ (f + 2) (.binary .sub (.const x) (.const y)) ctx
        = some (wrap64 (x - y), ctx)
      ∧ evalNode C σ (f + 2) (.binary .mul (.const x) (.const y)) ctx
        = some (wrap64 (x * y), ctx))
    ∧ (wrap64 (x + y) % 2 ^ 64 = (x + y) % 2 ^ 64
      ∧ wrap64 (x - y) % 2 ^ 64 = (x - y) % 2 ^ 64
      ∧ wrap64 (x * y) % 2 ^ 64 = (x * y) % 2 ^ 64)
    ∧ (-2 ^ 63 ≤ wrap64 (x + y) ∧ wrap64 (x + y) < 2 ^ 63)
    ∧ evalNode C σ (f + 2) (.binary .add (.const (2 ^ 63 - 1)) (.const 1)) ctx
        = some (-2 ^ 63, ctx) := by
  refine ⟨⟨?_, ?_, ?_⟩,
    ⟨(wrap64_spec _).1, (wrap64_spec _).1, (wrap64_spec _).1⟩,
    ⟨(wrap64_spec _).2.1, (wrap64_spec _).2.2⟩, ?_⟩
  · simp [evalNode, binOpDenote]
  · simp [evalNode, binOpDenote]
  · simp [evalNode, binOpDenote]
  · simp only [evalNode, binOpDenote]
    norm_num [wrap64]

/-- **C3.** Select (ternary) evaluation evaluates the condition first, then
exactly one branch chosen by truthiness; the unchosen branch is never
evaluated, so evaluation terminates (returns a value at some finite fuel)
whenever the condition and the chosen branch evaluate, even when the unchosen
branch alone would recurse unboundedly (returns `none` at every fuel).  The
last two conjuncts exhibit this on `divergingCircuit`: the self-referential
wire alone never evaluates, yet a select whose condition avoids it returns
`42`. -/
theorem select_evaluates_only_chosen_branch (C : Circuit) (σ : State) (f : Nat)
    (a b c : Expr) (ctx c1 : Cache) (vc : Int)
    (ha : evalNode C σ f a ctx = some (vc, c1)) :
    (vc ≠ 0 → evalNode C σ (f + 1) (.select a b c) ctx = evalNode C σ f b c1)
    ∧ (vc = 0 → evalNode C σ (f + 1) (.select a b c) ctx = evalNode C σ f c c1)
    ∧ (∀ g, evalNode divergingCircuit σ g (.wireRef 0) [] = none)
    ∧ (∀ g, evalNode divergingCircuit σ (g + 2)
        (.select (.const 1) (.const 42) (.wireRef 0)) [] = some (42, [])) := by
  refine ⟨?_, ?_, divergingCircuit_eval_none σ, ?_⟩
  · intro hnz
    simp only [evalNode, ha]
    rw [if_pos hnz]
  · intro hz
    simp only [evalNode, ha]
    rw [if_neg (by simp [hz])]
  · intro g
    simp [evalNode]

theorem select_evaluates_only_chosen_branch_witness :
    (evalNode ⟨[]⟩ (fun _ => 0) 2 (.select (.const 1) (.const 42) (.const 0)) []
      = evalNode ⟨[]⟩ (fun _ => 0) 1 (.const 42) [])
    ∧ evalNode divergingCircuit (fun _ => 0) 7 (.wireRef 0) [] = none :=
  have h := select_evaluates_only_chosen_branch ⟨[]⟩ (fun _ => 0) 1
    (.const 1) (.const 42) (.const 0) [] [] 1 (by decide)
  ⟨h.1 (by decide), h.2.2.1 7⟩

/-! ### Claim C5 -/

/-- Acyclicity of the combinational dependency graph (the caller-side
invariant the spec documents): some rank function strictly decreases from a
combinationally-defined wire to every wire referenced anywhere in its
combinational definition. -/
def CombAcyclic (C : Circuit) : Prop :=
  ∃ r : Nat → Nat, ∀ w e, C.comb w = some e → ∀ w' ∈ exprWires e, r w' < r w

/-- **C5.** For every acyclic combinational graph and committed state,
per-cycle memoization is value-transparent.  Starting a cycle from the empty
context: (i) evaluation with the memo cache returns the same value as a naive
unmemoized evaluation (`evalPure`) of the same expression against the same
committed state; (ii) every value cached in the resulting context equals the
naive value of that signal's combinational root in that state; (iii) a signal
already present in the cache is not evaluated again — `wire_value` returns
the cached value and leaves the context untouched — so each combinational
signal is evaluated at most once per cycle.  (The proof shows (i) and (ii)
hold whenever the memoized evaluation terminates, acyclic or not.) -/
theorem memoization_value_transparent (C : Circuit) (σ : State)
    (_hacyc : CombAcyclic C) (f : Nat) (e : Expr) (v : Int) (ctx' : Cache)
    (h : evalNode C σ f e [] = some (v, ctx')) :
    (∃ g, evalPure C σ g e = some v)
    ∧ (∀ w vw, lookupCache ctx' w = some vw → ∃ g, wireValuePure C σ g w = some vw)
    ∧ (∀ f2 w e0 ctx vw, C.comb w = some e0 → lookupCache ctx w = some vw →
        wireValue C σ f2 w ctx = some (vw, ctx)) := by
  obtain ⟨hpure, hgood, _⟩ := evalNode_sound C σ f e [] v ctx' (goodCache_nil C σ) h
  refine ⟨hpure, hgood, ?_⟩
  intro f2 w e0 ctx vw hc hl
  simp [wireValue, hc, hl]

/-- A small acyclic circuit for the C5 witness: `a = 1`, `b = 2`,
`sum = a + b`, all combinational. -/
def memoWitnessCircuit : Circuit :=
  ⟨[(0, ⟨"a", some (.const 1), none⟩),
    (1, ⟨"b", some (.const 2), none⟩),
    (2, ⟨"sum", some (.binary .add (.wireRef 0) (.wireRef 1)), none⟩)]⟩

theorem memoWitnessCircuit_acyclic : CombAcyclic memoWitnessCircuit := by
  refine ⟨fun w => w, ?_⟩
  intro w e hc w' hw'
  have hdom : w ∈ memoWitnessCircuit.dom := by
    by_contra hnd
    rw [Circuit.comb_eq_none _ _ hnd] at hc
    simp at hc
  have hdeq : memoWitnessCircuit.dom = {0, 1, 2} := by decide
  rw [hdeq] at hdom
  fin_cases hdom
  · have h0 : memoWitnessCircuit.comb 0 = some (.const 1) := rfl
    rw [h0] at hc
    obtain rfl := Option.some_injective _ hc
    simp [exprWires] at hw'
  · have h1 : memoWitnessCircuit.comb 1 = some (.const 2) := rfl
    rw [h1] at hc
    obtain rfl := Option.some_injective _ hc
    simp [exprWires] at hw'
  · have h2 : memoWitnessCircuit.comb 2 =
        some (.binary .add (.wireRef 0) (.wireRef 1)) := rfl
    rw [h2] at hc
    obtain rfl := Option.some_injective _ hc
    simp [exprWires] at hw'
    rcases hw' with rfl | rfl <;> simp

theorem memoization_value_transparent_witness :
    (∃ g, evalPure memoWitnessCircuit (fun _ => 0) g
        (.binary .add (.wireRef 2) (.wireRef 2)) = some 6)
    ∧ (∃ g, wireValuePure memoWitnessCircuit (fun _ => 0) g 2 = some 3) :=
  have h := memoization_value_transparent memoWitnessCircuit (fun _ => 0)
    memoWitnessCircuit_acyclic 10 (.binary .add (.wireRef 2) (.wireRef 2)) 6
    [(2, 3), (1, 2), (0, 1)] (by decide)
  ⟨h.1, h.2.1 2 3 (by decide)⟩

/-! ### Claim C6: closure is the smallest closed superset and a fixed point -/

/-- The wire identities referenced directly by either definition of `w`. -/
def directRefs (C : Circuit) (w : Nat) : List Nat :=
  optWires (C.comb w) ++ optWires (C.nextE w)

/-- `S` is closed under following signal references inside the combinational
and registered definitions of its members. -/
def ClosedUnder (C : Circuit) (S : Finset Nat) : Prop :=
  ∀ w ∈ S, ∀ w' ∈ directRefs C w, w' ∈ S

theorem subset_foldl {α : Type} (f : Finset Nat → α → Finset Nat)
    (hf : ∀ a x, a ⊆ f a x) :
    ∀ (l : List α) (s : Finset Nat), s ⊆ l.foldl f s := by
  intro l
  induction l with
  | nil => intro s; simp
  | cons y rest ih =>
    intro s
    simp only [List.foldl_cons]
    exact (hf s y).trans (ih (f s y))

theorem foldl_eq_self {α : Type} (f : Finset Nat → α → Finset Nat)
    (hf : ∀ a x, a ⊆ f a x) :
    ∀ (l : List α) (s : Finset Nat), l.foldl f s = s → ∀ x ∈ l, f s x = s := by
  intro l
  induction l with
  | nil => simp
  | cons y rest ih =>
    intro s hfold x hx
    simp only [List.foldl_cons] at hfold
    have h1 : s ⊆ f s y := hf s y
    have h2 : f s y ⊆ rest.foldl f (f s y) := subset_foldl f hf rest (f s y)
    rw [hfold] at h2
    have hy : f s y = s := Finset.Subset.antisymm h2 h1
    rcases List.mem_cons.mp hx with rfl | hx2
    · exact hy
    · rw [hy] at hfold
      exact ih s hfold x hx2

theorem foldl_preserve {α : Type} (f : Finset Nat → α → Finset Nat)
    (P : Finset Nat → Prop) :
    ∀ (l : List α), (∀ a x, x ∈ l → P a → P (f a x)) →
      ∀ s, P s → P (l.foldl f s) := by
  intro l
  induction l with
  | nil => intro _ s hs; simpa using hs
  | cons y rest ih =>
    intro hstep s hs
    simp only [List.foldl_cons]
    exact ih (fun a x hx ha => hstep a x (List.mem_cons_of_mem _ hx) ha)
      (f s y) (hstep s y (List.mem_cons_self _ _) hs)

theorem gatherList_eq_imp_refs_subset (C : Circuit) :
    ∀ l s, gatherList C l s = s → ∀ e ∈ l, ∀ w ∈ exprWires e, w ∈ s := by
  intro l s
  induction l, s using gatherList.induct C with
  | case1 s => simp
  | case2 v rest s ih =>
    rw [gatherList]
    intro h e he w hw
    rcases List.mem_cons.mp he with rfl | he2
    · simp [exprWires] at hw
    · exact ih h e he2 w hw
  | case3 w0 rest s hmem ih =>
    rw [gatherList, if_pos hmem]
    intro h e he w hw
    rcases List.mem_cons.mp he with rfl | he2
    · simp only [exprWires, List.mem_singleton] at hw
      subst hw
      exact hmem
    · exact ih h e he2 w hw
  | case4 w0 rest s hmem ih =>
    rw [gatherList, if_neg hmem]
    intro h
    exfalso
    have hsub : insert w0 s ⊆
        gatherList C (optExpr (C.comb w0) ++ optExpr (C.nextE w0) ++ rest)
          (insert w0 s) :=
      gatherList_subset_self C _ _
    rw [h] at hsub
    exact hmem (hsub (Finset.mem_insert_self w0 s))
  | case5 op a rest s ih =>
    rw [gatherList]
    intro h e he w hw
    rcases List.mem_cons.mp he with rfl | he2
    · exact ih h a (List.mem_cons_self _ _) w (by simpa [exprWires] using hw)
    · exact ih h e (List.mem_cons_of_mem _ he2) w hw
  | case6 op a b rest s ih =>
    rw [gatherList]
    intro h e he w hw
    rcases List.mem_cons.mp he with rfl | he2
    · simp only [exprWires, List.mem_append] at hw
      rcases hw with hw | hw
      · exact ih h a (List.mem_cons_self _ _) w hw
      · exact ih h b (List.mem_cons_of_mem _ (List.mem_cons_self _ _)) w hw
    · exact ih h e (List.mem_cons_of_mem _ (List.mem_cons_of_mem _ he2)) w hw
  | case7 a b rest s ih =>
    rw [gatherList]
    intro h e he w hw
    rcases List.mem_cons.mp he with rfl | he2
    · simp only [exprWires, List.mem_append] at hw
      rcases hw with hw | hw
      · exact ih h a (List.mem_cons_self _ _) w hw
      · exact ih h b (List.mem_cons_of_mem _ (List.mem_cons_self _ _)) w hw
    · exact ih h e (List.mem_cons_of_mem _ (List.mem_cons_of_mem _ he2)) w hw
  | case8 a b rest s ih =>
    rw [gatherList]
    intro h e he w hw
    rcases List.mem_cons.mp he with rfl | he2
    · simp only [exprWires, List.mem_append] at hw
      rcases hw with hw | hw
      · exact ih h a (List.mem_cons_self _ _) w hw
      · exact ih h b (List.mem_cons_of_mem _ (List.mem_cons_self _ _)) w hw
    · exact ih h e (List.mem_cons_of_mem _ (List.mem_cons_of_mem _ he2)) w hw
  | case9 a b rest s ih =>
    rw [gatherList]
    intro h e he w hw
    rcases List.mem_cons.mp he with rfl | he2
    · simp only [exprWires, List.mem_append] at hw
      rcases hw with hw | hw
      · exact ih h a (List.mem_cons_self _ _) w hw
      · exact ih h b (List.mem_cons_of_mem _ (List.mem_cons_self _ _)) w hw
    · exact ih h e (List.mem_cons_of_mem _ (List.mem_cons_of_mem _ he2)) w hw
  | case10 a b rest s ih =>
    rw [gatherList]
    intro h e he w hw
    rcases List.mem_cons.mp he with rfl | he2
    · simp only [exprWires, List.mem_append] at hw
      rcases hw with hw | hw
      · exact ih h a (List.mem_cons_self _ _) w hw
      · exact ih h b (List.mem_cons_of_mem _ (List.mem_cons_self _ _)) w hw
    · exact ih h e (List.mem_cons_of_mem _ (List.mem_cons_of_mem _ he2)) w hw
  | case11 a b c rest s ih =>
    rw [gatherList]
    intro h e he w hw
    rcases List.mem_cons.mp he with rfl | he2
    · simp only [exprWires, List.mem_append] at hw
      rcases hw with (hw | hw) | hw
      · exact ih h a (List.mem_cons_self _ _) w hw
      · exact ih h b (List.mem_cons_of_mem _ (List.mem_cons_self _ _)) w hw
      · exact ih h c
          (List.mem_cons_of_mem _ (List.mem_cons_of_mem _ (List.mem_cons_self _ _))) w hw
    · exact ih h e
        (List.mem_cons_of_mem _ (List.mem_cons_of_mem _ (List.mem_cons_of_mem _ he2))) w hw

theorem closureStep_fix_closed (C : Circuit) (S : Finset Nat)
    (h : closureStep C S = S) : ClosedUnder C S := by
  intro w hw w' hw'
  have hstep := foldl_eq_self
    (fun acc u => gatherOpt C (C.nextE u) (gatherOpt C (C.comb u) acc))
    (fun a u => (gatherList_subset_self C _ a).trans (gatherList_subset_self C _ _))
    (S.sort (· ≤ ·)) S h w ((Finset.mem_sort _).mpr hw)
  dsimp only at hstep
  unfold gatherOpt at hstep
  have h1 : gatherList C (optExpr (C.comb w)) S ⊆ S := by
    have hsub := gatherList_subset_self C (optExpr (C.nextE w))
      (gatherList C (optExpr (C.comb w)) S)
    rw [hstep] at hsub
    exact hsub
  have h2 : gatherList C (optExpr (C.comb w)) S = S :=
    Finset.Subset.antisymm h1 (gatherList_subset_self C _ S)
  have h3 : gatherList C (optExpr (C.nextE w)) S = S := by
    rw [h2] at hstep
    exact hstep
  simp only [directRefs, List.mem_append] at hw'
  rcases hw' with hw' | hw'
  · cases hc : C.comb w with
    | none => rw [hc] at hw'; simp [optWires] at hw'
    | some e =>
      rw [hc] at hw'
      exact gatherList_eq_imp_refs_subset C (optExpr (C.comb w)) S h2 e
        (by rw [hc]; exact List.mem_singleton.mpr rfl) w' hw'
  · cases hc : C.nextE w with
    | none => rw [hc] at hw'; simp [optWires] at hw'
    | some e =>
      rw [hc] at hw'
      exact gatherList_eq_imp_refs_subset C (optExpr (C.nextE w)) S h3 e
        (by rw [hc]; exact List.mem_singleton.mpr rfl) w' hw'

theorem gatherList_subset_closed (C : Circuit) (T : Finset Nat)
    (hT : ClosedUnder C T) :
    ∀ l s, s ⊆ T → (∀ e ∈ l, ∀ w ∈ exprWires e, w ∈ T) → gatherList C l s ⊆ T := by
  intro l s
  induction l, s using gatherList.induct C with
  | case1 s => intro hs _; rw [gatherList]; exact hs
  | case2 v rest s ih =>
    intro hs hl
    rw [gatherList]
    exact ih hs fun e he => hl e (List.mem_cons_of_mem _ he)
  | case3 w0 rest s hmem ih =>
    intro hs hl
    rw [gatherList, if_pos hmem]
    exact ih hs fun e he => hl e (List.mem_cons_of_mem _ he)
  | case4 w0 rest s hmem ih =>
    intro hs hl
    rw [gatherList, if_neg hmem]
    have hw0T : w0 ∈ T := by
      refine hl (.wireRef w0) (List.mem_cons_self _ _) w0 ?_
      simp [exprWires]
    refine ih (Finset.insert_subset hw0T hs) ?_
    intro e he w hw
    rcases List.mem_append.mp he with he1 | he2
    · rcases List.mem_append.mp he1 with hec | hen
      · refine hT w0 hw0T w ?_
        simp only [directRefs, List.mem_append]
        left
        cases hc : C.comb w0 with
        | none => rw [hc] at hec; simp [optExpr] at hec
        | some e0 =>
          rw [hc] at hec
          simp only [optExpr, List.mem_singleton] at hec
          subst hec
          simpa [optWires] using hw
      · refine hT w0 hw0T w ?_
        simp only [directRefs, List.mem_append]
        right
        cases hc : C.nextE w0 with
        | none => rw [hc] at hen; simp [optExpr] at hen
        | some e0 =>
          rw [hc] at hen
          simp only [optExpr, List.mem_singleton] at hen
          subst hen
          simpa [optWires] using hw
    · exact hl e (List.mem_cons_of_mem _ he2) w hw
  | case5 op a rest s ih =>
    intro hs hl
    rw [gatherList]
    refine ih hs ?_
    intro e he w hw
    rcases List.mem_cons.mp he with rfl | he2
    · exact hl (.unary op e) (List.mem_cons_self _ _) w (by simpa [exprWires] using hw)
    · exact hl e (List.mem_cons_of_mem _ he2) w hw
  | case6 op a b rest s ih =>
    intro hs hl
    rw [gatherList]
    refine ih hs ?_
    intro e he w hw
    rcases List.mem_cons.mp he with rfl | he2
    · exact hl (.binary op e b) (List.mem_cons_self _ _) w
        (by simp [exprWires]; tauto)
    · rcases List.mem_cons.mp he2 with rfl | he3
      · exact hl (.binary op a e) (List.mem_cons_self _ _) w
          (by simp [exprWires]; tauto)
      · exact hl e (List.mem_cons_of_mem _ he3) w hw
  | case7 a b rest s ih =>
    intro hs hl
    rw [gatherList]
    refine ih hs ?_
    intro e he w hw
    rcases List.mem_cons.mp he with rfl | he2
    · exact hl (.div e b) (List.mem_cons_self _ _) w
        (by simp [exprWires]; tauto)
    · rcases List.mem_cons.mp he2 with rfl | he3
      · exact hl (.div a e) (List.mem_cons_self _ _) w
          (by simp [exprWires]; tauto)
      · exact hl e (List.mem_cons_of_mem _ he3) w hw
  | case8 a b rest s ih =>
    intro hs hl
    rw [gatherList]
    refine ih hs ?_
    intro e he w hw
    rcases List.mem_cons.mp he with rfl | he2
    · exact hl (.mod e b) (List.mem_cons_self _ _) w
        (by simp [exprWires]; tauto)
    · rcases List.mem_cons.mp he2 with rfl | he3
      · exact hl (.mod a e) (List.mem_cons_self _ _) w
          (by simp [exprWires]; tauto)
      · exact hl e (List.mem_cons_of_mem _ he3) w hw
  | case9 a b rest s ih =>
    intro hs hl
    rw [gatherList]
    refine ih hs ?_
    intro e he w hw
    rcases List.mem_cons.mp he with rfl | he2
    · exact hl (.logAnd e b) (List.mem_cons_self _ _) w
        (by simp [exprWires]; tauto)
    · rcases List.mem_cons.mp he2 with rfl | he3
      · exact hl (.logAnd a e) (List.mem_cons_self _ _) w
          (by simp [exprWires]; tauto)
      · exact hl e (List.mem_cons_of_mem _ he3) w hw
  | case10 a b rest s ih =>
    intro hs hl
    rw [gatherList]
    refine ih hs ?_
    intro e he w hw
    rcases List.mem_cons.mp he with rfl | he2
    · exact hl (.logOr e b) (List.mem_cons_self _ _) w
        (by simp [exprWires]; tauto)
    · rcases List.mem_cons.mp he2 with rfl | he3
      · exact hl (.logOr a e) (List.mem_cons_self _ _) w
          (by simp [exprWires]; tauto)
      · exact hl e (List.mem_cons_of_mem _ he3) w hw
  | case11 a b c rest s ih =>
    intro hs hl
    rw [gatherList]
    refine ih hs ?_
    intro e he w hw
    rcases List.mem_cons.mp he with rfl | he2
    · exact hl (.select e b c) (List.mem_cons_self _ _) w
        (by simp [exprWires]; tauto)
    · rcases List.mem_cons.mp he2 with rfl | he3
      · exact hl (.select a e c) (List.mem_cons_self _ _) w
          (by simp [exprWires]; tauto)
      · rcases List.mem_cons.mp he3 with rfl | he4
        · exact hl (.select a b e) (List.mem_cons_self _ _) w
            (by simp [exprWires]; tauto)
        · exact hl e (List.mem_cons_of_mem _ he4) w hw

theorem closureStep_subset_closed (C : Circuit) (T : Finset Nat)
    (hT : ClosedUnder C T) (s : Finset Nat) (hs : s ⊆ T) :
    closureStep C s ⊆ T := by
  unfold closureStep
  refine foldl_preserve _ (fun a => a ⊆ T) _ ?_ s hs
  intro a u hu ha
  have huS : u ∈ s := (Finset.mem_sort _).mp hu
  have huT : u ∈ T := hs huS
  have hrefs : ∀ oe : Option Expr, (oe = C.comb u ∨ oe = C.nextE u) →
      ∀ e ∈ optExpr oe, ∀ w ∈ exprWires e, w ∈ T := by
    intro oe hoe e he w hw
    refine hT u huT w ?_
    simp only [directRefs, List.mem_append]
    rcases hoe with rfl | rfl
    · left
      cases hc : C.comb u with
      | none => rw [hc] at he; simp [optExpr] at he
      | some e0 =>
        rw [hc] at he
        simp only [optExpr, List.mem_singleton] at he
        subst he
        simpa [optWires] using hw
    · right
      cases hc : C.nextE u with
      | none => rw [hc] at he; simp [optExpr] at he
      | some e0 =>
        rw [hc] at he
        simp only [optExpr, List.mem_singleton] at he
        subst he
        simpa [optWires] using hw
  have h1 : gatherOpt C (C.comb u) a ⊆ T :=
    gatherList_subset_closed C T hT _ a ha (hrefs (C.comb u) (Or.inl rfl))
  exact gatherList_subset_closed C T hT _ _ h1 (hrefs (C.nextE u) (Or.inr rfl))

theorem closureLoop_eq (C : Circuit) (s : Finset Nat) :
    closureLoop C s =
      if closureStep C s = s then s else closureLoop C (closureStep C s) := by
  rw [closureLoop]

theorem closureLoop_superset (C : Circuit) (s : Finset Nat) :
    s ⊆ closureLoop C s := by
  induction s using closureLoop.induct C with
  | case1 s s' =>
    rename_i hfix
    rw [closureLoop_eq, if_pos (show closureStep C s = s from hfix)]
  | case2 s s' hne =>
    rename_i ih
    rw [closureLoop_eq, if_neg (show ¬closureStep C s = s from hne)]
    exact (closureStep_subset_self C s).trans ih

theorem closureLoop_fix (C : Circuit) (s : Finset Nat) :
    closureStep C (closureLoop C s) = closureLoop C s := by
  induction s using closureLoop.induct C with
  | case1 s s' =>
    rename_i hfix
    rw [closureLoop_eq, if_pos (show closureStep C s = s from hfix)]
    exact hfix
  | case2 s s' hne =>
    rename_i ih
    rw [closureLoop_eq, if_neg (show ¬closureStep C s = s from hne)]
    exact ih

theorem closureLoop_subset_closed (C : Circuit) (T : Finset Nat)
    (hT : ClosedUnder C T) :
    ∀ s : Finset Nat, s ⊆ T → closureLoop C s ⊆ T := by
  intro s
  induction s using closureLoop.induct C with
  | case1 s s' =>
    rename_i hfix
    intro hsT
    rw [closureLoop_eq, if_pos (show closureStep C s = s from hfix)]
    exact hsT
  | case2 s s' hne =>
    rename_i ih
    intro hsT
    rw [closureLoop_eq, if_neg (show ¬closureStep C s = s from hne)]
    exact ih (closureStep_subset_closed C T hT s hsT)

theorem targets_foldl_mem (targets : List (Option Nat)) :
    ∀ (s : Finset Nat) (w : Nat), (some w ∈ targets ∨ w ∈ s) →
      w ∈ targets.foldl
        (fun s ow => match ow with | some u => insert u s | none => s) s := by
  induction targets with
  | nil =>
    intro s w hw
    rcases hw with hw | hw
    · simp at hw
    · simpa using hw
  | cons ow rest ih =>
    intro s w hw
    simp only [List.foldl_cons]
    rcases hw with hw | hw
    · rcases List.mem_cons.mp hw with heq | hw2
      · cases ow with
        | none => simp at heq
        | some u =>
          have huw : u = w := Option.some_injective _ heq.symm
          refine ih _ w (Or.inr ?_)
          rw [huw]
          exact Finset.mem_insert_self w s
      · exact ih _ w (Or.inl hw2)
    · refine ih _ w (Or.inr ?_)
      cases ow with
      | none => exact hw
      | some u => exact Finset.mem_insert_of_mem hw

theorem targets_foldl_subset (targets : List (Option Nat)) (T : Finset Nat)
    (hT : ∀ w, some w ∈ targets → w ∈ T) :
    ∀ s : Finset Nat, s ⊆ T →
      targets.foldl
        (fun s ow => match ow with | some u => insert u s | none => s) s ⊆ T := by
  induction targets with
  | nil => intro s hs; simpa using hs
  | cons ow rest ih =>
    intro s hs
    simp only [List.foldl_cons]
    refine ih (fun w hw => hT w (List.mem_cons_of_mem _ hw)) _ ?_
    cases ow with
    | none => exact hs
    | some u =>
      exact Finset.insert_subset (hT u (List.mem_cons_self _ _)) hs

/-- **C6.** The dependency closure is the smallest set containing the
(non-null) targets that is closed under the signal references occurring in
both the combinational and registered definitions of its members; and it is a
fixed point — computing the closure of its own output yields the same set. -/
theorem closure_smallest_closed_fixpoint (C : Circuit) (targets : List (Option Nat)) :
    (∀ w, some w ∈ targets → w ∈ closure_from_targets C targets)
    ∧ ClosedUnder C (closure_from_targets C targets)
    ∧ (∀ T : Finset Nat, (∀ w, some w ∈ targets → w ∈ T) → ClosedUnder C T →
        closure_from_targets C targets ⊆ T)
    ∧ closure_from_targets C
        (((closure_from_targets C targets).sort (· ≤ ·)).map some)
      = closure_from_targets C targets := by
  refine ⟨?_, ?_, ?_, ?_⟩
  · intro w hw
    exact closureLoop_superset C _ (targets_foldl_mem targets ∅ w (Or.inl hw))
  · exact closureStep_fix_closed C _ (closureLoop_fix C _)
  · intro T hTmem hTclosed
    exact closureLoop_subset_closed C T hTclosed _
      (targets_foldl_subset targets T hTmem ∅ (Finset.empty_subset T))
  · set A := closure_from_targets C targets with hA
    have hfold : ((A.sort (· ≤ ·)).map some).foldl
        (fun s ow => match ow with | some u => insert u s | none => s) ∅ = A := by
      have h1 : ∀ (l : List Nat) (s : Finset Nat),
          (l.map some).foldl
            (fun s ow => match ow with | some u => insert u s | none => s) s
            = l.foldl (fun s u => insert u s) s := by
        intro l
        induction l with
        | nil => intro s; rfl
        | cons u rest ih => intro s; simp only [List.map_cons, List.foldl_cons]; exact ih _
      rw [h1]
      have h2 : ∀ (l : List Nat) (s : Finset Nat),
          l.foldl (fun s u => insert u s) s = s ∪ l.toFinset := by
        intro l
        induction l with
        | nil => intro s; simp
        | cons u rest ih =>
          intro s
          simp only [List.foldl_cons, ih, List.toFinset_cons]
          ext x
          simp only [Finset.mem_union, Finset.mem_insert]
          tauto
      rw [h2]
      simp [Finset.sort_toFinset]
    have hfix : closureStep C A = A := by
      rw [hA]
      unfold closure_from_targets
      exact closureLoop_fix C _
    unfold closure_from_targets
    rw [hfold]
    rw [closureLoop_eq, if_pos hfix]

/-! ### Claim C10: null targets are skipped -/

theorem targets_foldl_filterMap (targets : List (Option Nat)) :
    ∀ s : Finset Nat,
      targets.foldl
        (fun s ow => match ow with | some u => insert u s | none => s) s
      = ((targets.filterMap id).map some).foldl
          (fun s ow => match ow with | some u => insert u s | none => s) s := by
  induction targets with
  | nil => intro s; rfl
  | cons ow rest ih =>
    intro s
    cases ow with
    | none =>
      simp only [List.foldl_cons, List.filterMap_cons, id_eq]
      exact ih s
    | some u =>
      simp only [List.foldl_cons, List.filterMap_cons, id_eq, List.map_cons]
      exact ih (insert u s)

theorem closureStep_empty (C : Circuit) : closureStep C ∅ = ∅ := by
  unfold closureStep
  simp

theorem closureLoop_empty (C : Circuit) : closureLoop C ∅ = ∅ := by
  rw [closureLoop_eq, if_pos (closureStep_empty C)]

theorem closure_replicate_none (C : Circuit) (k : Nat) :
    closure_from_targets C (List.replicate k none) = ∅ := by
  unfold closure_from_targets
  have hfold : ∀ (k : Nat) (s : Finset Nat), (List.replicate k (none : Option Nat)).foldl
      (fun s ow => match ow with | some u => insert u s | none => s) s = s := by
    intro k
    induction k with
    | zero => intro s; rfl
    | succ k ih => intro s; simp only [List.replicate_succ, List.foldl_cons]; exact ih s
  rw [hfold]
  exact closureLoop_empty C

theorem simLoop_nil_order (C : Circuit) (fuel : Nat) :
    ∀ (n : Nat) (σ : State) (hist : String → List Int),
      simLoop C [] fuel n σ hist = some (hist, σ) := by
  intro n
  induction n with
  | zero => intro σ hist; rfl
  | succ n ih => intro σ hist; exact ih σ hist

/-- **C10.** Null entries in `targets` are silently skipped before closure
computation (`for (auto* w : targets) if (w) set.insert(w);`): `simulate` on a
list containing nulls returns the same result as on the same list with the
nulls removed, and a list consisting only of nulls yields an empty mapping
(and an untouched committed-value store). -/
theorem null_targets_skipped (C : Circuit) (targets : List (Option Nat))
    (cycles : Nat) (restoreState : Bool) (fuel : Nat) (σ0 : State) :
    simulate C targets cycles restoreState fuel σ0
      = simulate C ((targets.filterMap id).map some) cycles restoreState fuel σ0
    ∧ ∀ k, simulate C (List.replicate k none) cycles restoreState fuel σ0
        = some ([], σ0) := by
  constructor
  · unfold simulate closureOrder closure_from_targets
    rw [targets_foldl_filterMap]
  · intro k
    unfold simulate closureOrder
    rw [closure_replicate_none]
    unfold simulateOn
    rw [show (∅ : Finset Nat).sort (· ≤ ·) = [] from by simp]
    rw [simLoop_nil_order]
    cases restoreState <;> simp [sortedNames]

/-! ### Claim C2: restore_state reverts committed values -/

theorem foldl_updState_mem (g : Nat → Int) :
    ∀ (l : List Nat) (σ : State) (w : Nat), w ∈ l →
      (l.foldl (fun σ u => updState σ u (g u)) σ) w = g w := by
  intro l
  induction l with
  | nil => intro σ w hw; simp at hw
  | cons u rest ih =>
    intro σ w hw
    simp only [List.foldl_cons]
    by_cases hwr : w ∈ rest
    · exact ih _ w hwr
    · have hwu : w = u := by
        rcases List.mem_cons.mp hw with h | h
        · exact h
        · exact absurd h hwr
      subst hwu
      have hnm : ∀ (l2 : List Nat) (σ2 : State), w ∉ l2 →
          (l2.foldl (fun σ u => updState σ u (g u)) σ2) w = σ2 w := by
        intro l2
        induction l2 with
        | nil => intro σ2 _; rfl
        | cons x xs ih2 =>
          intro σ2 hx
          simp only [List.foldl_cons]
          rw [ih2 _ (fun hc => hx (List.mem_cons_of_mem _ hc))]
          unfold updState
          rw [if_neg (fun hc => hx (List.mem_cons.mpr (Or.inl hc)))]
      rw [hnm rest _ hwr]
      unfold updState
      rw [if_pos rfl]

/-- **C2.** With `restore_state = true`, for every target list, every
`cycles ≥ 0` and every signal in the dependency closure, `simulate` leaves
that signal's committed value equal to its value before the call, regardless
of how many registered commits happened during the run: the snapshot taken
before the cycle loop is written back to every closure member afterwards. -/
theorem restore_state_preserves_committed (C : Circuit)
    (targets : List (Option Nat)) (cycles : Nat) (fuel : Nat) (σ0 : State)
    (out : List (String × List Int)) (σ' : State)
    (h : simulate C targets cycles true fuel σ0 = some (out, σ')) :
    ∀ w ∈ closure_from_targets C targets, σ' w = σ0 w := by
  intro w hw
  unfold simulate simulateOn closureOrder at h
  cases hl : simLoop C ((closure_from_targets C targets).sort (· ≤ ·)) fuel
      cycles σ0 (fun _ => []) with
  | none => rw [hl] at h; simp at h
  | some p =>
    obtain ⟨hist, σN⟩ := p
    rw [hl] at h
    simp only [Option.some.injEq, Prod.mk.injEq, if_true] at h
    obtain ⟨-, rfl⟩ := h
    exact foldl_updState_mem σ0 _ σN w ((Finset.mem_sort _).mpr hw)

/-- The circuit for the C2 witness: a registered accumulator
`acc << acc + 1`. -/
def restoreWitnessCircuit : Circuit :=
  ⟨[(0, ⟨"acc", none, some (.binary .add (.wireRef 0) (.const 1))⟩)]⟩

theorem sorted_le_of_toList (l : List String)
    (h : List.Pairwise (fun a b => a.toList ≤ b.toList) l) :
    List.Sorted (· ≤ ·) l :=
  h.imp (fun hab => String.le_iff_toList_le.mpr hab)

theorem sort_of_sorted {α : Type} [LinearOrder α] [DecidableEq α] (l : List α)
    (hn : l.Nodup) (hs : l.Sorted (· ≤ ·)) :
    l.toFinset.sort (· ≤ ·) = l :=
  (List.toFinset_sort (· ≤ ·) hn).mpr hs

theorem mem_closure_target (C : Circuit) (targets : List (Option Nat)) (w : Nat)
    (h : some w ∈ targets) : w ∈ closure_from_targets C targets :=
  closureLoop_superset C _ (targets_foldl_mem targets ∅ w (Or.inl h))

theorem closure_closed_all (C : Circuit) (targets : List (Option Nat)) :
    ClosedUnder C (closure_from_targets C targets) :=
  closureStep_fix_closed C _ (closureLoop_fix C _)

theorem closure_subset_of_closed (C : Circuit) (targets : List (Option Nat))
    (T : Finset Nat) (hmem : ∀ w, some w ∈ targets → w ∈ T)
    (hclosed : ClosedUnder C T) :
    closure_from_targets C targets ⊆ T :=
  closureLoop_subset_closed C T hclosed _
    (targets_foldl_subset targets T hmem ∅ (Finset.empty_subset T))

/-- Unfolding helper: once the sorted key list of a run is known concretely,
`simulateOn` is a purely structural computation. -/
theorem simulateOn_eval (C : Circuit) (order : List Nat) (cycles : Nat)
    (restoreState : Bool) (fuel : Nat) (σ0 : State) (nms : List String)
    (hn : sortedNames C order = nms) :
    simulateOn C order cycles restoreState fuel σ0
      = match simLoop C order fuel cycles σ0 (fun _ => []) with
        | none => none
        | some (hist, σN) =>
          some (nms.map (fun nm => (nm, hist nm)),
            if restoreState then
              order.foldl (fun σ w => updState σ w (σ0 w)) σN
            else σN) := by
  unfold simulateOn
  rw [hn]

theorem restoreWitness_closure :
    closure_from_targets restoreWitnessCircuit [some 0] = {0} := by
  apply Finset.Subset.antisymm
  · refine closure_subset_of_closed _ _ _ ?_ ?_
    · intro w hw
      simp only [List.mem_singleton] at hw
      obtain rfl : w = 0 := Option.some_injective _ hw
      decide
    · unfold ClosedUnder
      decide
  · intro x hx
    simp only [Finset.mem_singleton] at hx
    subst hx
    exact mem_closure_target _ _ 0 (by decide)

theorem restoreWitness_order : closureOrder restoreWitnessCircuit [some 0] = [0] := by
  unfold closureOrder
  rw [restoreWitness_closure]
  rw [show ({0} : Finset Nat) = [0].toFinset from by decide]
  exact sort_of_sorted [0] (by decide) (by decide)

theorem restoreWitness_names : sortedNames restoreWitnessCircuit [0] = ["acc"] := by
  unfold sortedNames
  rw [show List.map restoreWitnessCircuit.nameOf [0] = ["acc"] from by decide]
  exact sort_of_sorted ["acc"] (by decide) (sorted_le_of_toList _ (by decide))

theorem restore_state_preserves_committed_witness :
    (simulate restoreWitnessCircuit [some 0] 3 true 10 (fun _ => 0)).map
      (fun p => p.2 0) = some 0 := by
  have hsim : simulate restoreWitnessCircuit [some 0] 3 true 10 (fun _ => 0)
      = simulateOn restoreWitnessCircuit [0] 3 true 10 (fun _ => 0) := by
    unfold simulate
    rw [restoreWitness_order]
  have hs := hsim.trans
    (simulateOn_eval restoreWitnessCircuit [0] 3 true 10 (fun _ => 0) ["acc"]
      restoreWitness_names)
  obtain ⟨out, σ', hs'⟩ : ∃ out σ',
      simulate restoreWitnessCircuit [some 0] 3 true 10 (fun _ => 0)
        = some (out, σ') := by
    rw [hs]
    exact ⟨_, _, rfl⟩
  have hw : σ' 0 = (fun _ => (0 : Int)) 0 :=
    restore_state_preserves_committed restoreWitnessCircuit [some 0] 3 10
      (fun _ => 0) out σ' hs' 0
      (restoreWitness_closure ▸ Finset.mem_singleton_self 0)
  rw [hs']
  show some (σ' 0) = some 0
  rw [hw]

/-! ### Claim C7: output shape -/

theorem pushHist_length (hist : String → List Int) (nm0 nm : String) (v : Int) :
    (pushHist hist nm0 v nm).length
      = (hist nm).length + (if nm = nm0 then 1 else 0) := by
  unfold pushHist
  by_cases h : nm = nm0
  · rw [if_pos h, if_pos h, h]
    simp
  · rw [if_neg h, if_neg h]
    omega

theorem evalPhase_hist_length (C : Circuit) (σ : State) (fuel : Nat) :
    ∀ (order : List Nat) (ctx : Cache) (hist : String → List Int)
      (ctx' : Cache) (hist' : String → List Int),
      evalPhase C σ fuel order ctx hist = some (ctx', hist') →
      ∀ nm, (hist' nm).length
        = (hist nm).length + order.countP (fun w => C.nameOf w == nm) := by
  intro order
  induction order with
  | nil =>
    intro ctx hist ctx' hist' h nm
    simp only [evalPhase, Option.some.injEq, Prod.mk.injEq] at h
    obtain ⟨-, rfl⟩ := h
    simp
  | cons w rest ih =>
    intro ctx hist ctx' hist' h nm
    simp only [evalPhase] at h
    cases hv : wireValue C σ fuel w ctx with
    | none => rw [hv] at h; simp at h
    | some p =>
      obtain ⟨v, ctx1⟩ := p
      rw [hv] at h
      dsimp only at h
      have hih := ih ctx1 (pushHist hist (C.nameOf w) v) ctx' hist' h nm
      have hp := pushHist_length hist (C.nameOf w) nm v
      rw [hih, hp, List.countP_cons]
      by_cases hnm : nm = C.nameOf w
      · have hb : (C.nameOf w == nm) = true := beq_iff_eq.mpr hnm.symm
        rw [if_pos hnm, hb, if_pos rfl]
        omega
      · have hb : (C.nameOf w == nm) = false :=
          beq_eq_false_iff_ne.mpr (fun hc => hnm hc.symm)
        rw [if_neg hnm, hb, if_neg (by simp)]
        omega

theorem simLoop_hist_length (C : Circuit) (order : List Nat) (fuel : Nat) :
    ∀ (n : Nat) (σ : State) (hist hist' : String → List Int) (σ' : State),
      simLoop C order fuel n σ hist = some (hist', σ') →
      ∀ nm, (hist' nm).length
        = (hist nm).length + n * order.countP (fun w => C.nameOf w == nm) := by
  intro n
  induction n with
  | zero =>
    intro σ hist hist' σ' h nm
    simp only [simLoop, Option.some.injEq, Prod.mk.injEq] at h
    obtain ⟨rfl, -⟩ := h
    simp
  | succ n ih =>
    intro σ hist hist' σ' h nm
    simp only [simLoop] at h
    cases hc : simCycle C order fuel σ hist with
    | none => rw [hc] at h; simp at h
    | some p =>
      obtain ⟨hist1, σ1⟩ := p
      rw [hc] at h
      dsimp only at h
      unfold simCycle at hc
      cases he : evalPhase C σ fuel order [] hist with
      | none => rw [he] at hc; simp at hc
      | some q =>
        obtain ⟨ctx1, hist1'⟩ := q
        rw [he] at hc
        dsimp only at hc
        cases hn : nextPhase C σ fuel order ctx1 with
        | none => rw [hn] at hc; simp at hc
        | some r =>
          obtain ⟨ctx2, ns⟩ := r
          rw [hn] at hc
          dsimp only at hc
          simp only [Option.some.injEq, Prod.mk.injEq] at hc
          obtain ⟨rfl, rfl⟩ := hc
          have h1 := evalPhase_hist_length C σ fuel order [] hist _ _ he nm
          have h2 := ih _ _ hist' σ' h nm
          rw [h2, h1]
          ring

theorem filter_eq_singleton_of (l : List Nat) (p : Nat → Bool) (a : Nat)
    (hn : l.Nodup) (ha : a ∈ l) (hpa : p a = true)
    (huniq : ∀ x ∈ l, p x = true → x = a) :
    l.filter p = [a] := by
  induction l with
  | nil => simp at ha
  | cons x rest ih =>
    have hx : x ∉ rest := (List.nodup_cons.mp hn).1
    have hnr : rest.Nodup := (List.nodup_cons.mp hn).2
    cases hpx : p x with
    | true =>
      have hxa : x = a := huniq x (List.mem_cons_self _ _) hpx
      subst hxa
      rw [List.filter_cons_of_pos hpx]
      have hrest : rest.filter p = [] := by
        rw [List.filter_eq_nil_iff]
        intro y hy
        intro hpy
        exact hx ((huniq y (List.mem_cons_of_mem _ hy) hpy) ▸ hy)
      rw [hrest]
    | false =>
      have hax : a ∈ rest := by
        rcases List.mem_cons.mp ha with rfl | h
        · rw [hpa] at hpx; exact absurd hpx (by simp)
        · exact h
      rw [List.filter_cons_of_neg (by simp [hpx])]
      exact ih hnr hax fun y hy hpy => huniq y (List.mem_cons_of_mem _ hy) hpy

/-- **C7 (amended).** For every target list and every `cycles ≥ 0`, provided
the closure members carry pairwise-distinct names, the mapping returned by
`simulate` has exactly the names of the dependency-closure members as keys, in
sorted (lexicographic `String` order, not insertion or discovery) order with
no duplicates, and every key maps to a sequence of exactly `cycles` values;
with empty targets the mapping is empty.  (The distinct-names hypothesis is
required: the original claim fails without it, see the counterexample — two
same-named wires share one `std::map` key, which then receives `2 * cycles`
values.) -/
theorem simulate_output_shape (C : Circuit) (targets : List (Option Nat))
    (cycles : Nat) (restoreState : Bool) (fuel : Nat) (σ0 : State)
    (out : List (String × List Int)) (σ' : State)
    (h : simulate C targets cycles restoreState fuel σ0 = some (out, σ'))
    (hnames : ∀ w ∈ closure_from_targets C targets,
      ∀ w' ∈ closure_from_targets C targets, C.nameOf w = C.nameOf w' → w = w') :
    (∀ nm, nm ∈ out.map Prod.fst ↔
      ∃ w ∈ closure_from_targets C targets, C.nameOf w = nm)
    ∧ (out.map Prod.fst).Sorted (· ≤ ·)
    ∧ (out.map Prod.fst).Nodup
    ∧ (∀ p ∈ out, p.2.length = cycles)
    ∧ (targets = [] → out = []) := by
  unfold simulate simulateOn closureOrder at h
  cases hl : simLoop C ((closure_from_targets C targets).sort (· ≤ ·)) fuel
      cycles σ0 (fun _ => []) with
  | none => rw [hl] at h; simp at h
  | some p =>
    obtain ⟨hist, σN⟩ := p
    rw [hl] at h
    dsimp only at h
    simp only [Option.some.injEq, Prod.mk.injEq] at h
    obtain ⟨rfl, -⟩ := h
    have hkeys : (List.map Prod.fst
        ((sortedNames C ((closure_from_targets C targets).sort (· ≤ ·))).map
          (fun nm => (nm, hist nm))))
        = sortedNames C ((closure_from_targets C targets).sort (· ≤ ·)) := by
      rw [List.map_map]
      have hcomp : (Prod.fst ∘ fun nm : String => (nm, hist nm)) = id := rfl
      rw [hcomp, List.map_id]
    refine ⟨?_, ?_, ?_, ?_, ?_⟩
    · intro nm
      rw [hkeys]
      unfold sortedNames
      rw [Finset.mem_sort, List.mem_toFinset, List.mem_map]
      constructor
      · rintro ⟨w, hw, rfl⟩
        exact ⟨w, (Finset.mem_sort _).mp hw, rfl⟩
      · rintro ⟨w, hw, rfl⟩
        exact ⟨w, (Finset.mem_sort _).mpr hw, rfl⟩
    · rw [hkeys]
      exact Finset.sort_sorted _ _
    · rw [hkeys]
      exact Finset.sort_nodup _ _
    · intro p hp
      obtain ⟨nm, hnm, rfl⟩ := List.mem_map.mp hp
      have hlen := simLoop_hist_length C
        ((closure_from_targets C targets).sort (· ≤ ·)) fuel cycles σ0
        (fun _ => []) hist σN hl nm
      unfold sortedNames at hnm
      rw [Finset.mem_sort, List.mem_toFinset, List.mem_map] at hnm
      obtain ⟨w0, hw0, rfl⟩ := hnm
      have hw0c : w0 ∈ closure_from_targets C targets := (Finset.mem_sort _).mp hw0
      have hcount : ((closure_from_targets C targets).sort (· ≤ ·)).countP
          (fun w => C.nameOf w == C.nameOf w0) = 1 := by
        rw [List.countP_eq_length_filter]
        rw [filter_eq_singleton_of _ (fun w => C.nameOf w == C.nameOf w0) w0
          (Finset.sort_nodup _ _) hw0 (beq_iff_eq.mpr rfl)
          (fun x hx hpx => hnames x ((Finset.mem_sort _).mp hx) w0 hw0c
            (beq_iff_eq.mp hpx))]
        rfl
      simp only [hcount] at hlen
      simpa using hlen
    · intro ht
      subst ht
      have hcl : closure_from_targets C [] = ∅ := by
        unfold closure_from_targets
        exact closureLoop_empty C
      rw [hcl]
      rw [show (∅ : Finset Nat).sort (· ≤ ·) = [] from by simp]
      unfold sortedNames
      simp

/-- Two wires that share the name "x": wire 0 combinationally copies wire 1. -/
def dupNameCircuit : Circuit :=
  ⟨[(0, ⟨"x", some (.wireRef 1), none⟩),
    (1, ⟨"x", none, none⟩)]⟩

theorem dupName_closure :
    closure_from_targets dupNameCircuit [some 0] = {0, 1} := by
  apply Finset.Subset.antisymm
  · refine closure_subset_of_closed _ _ _ ?_ ?_
    · intro w hw
      simp only [List.mem_singleton] at hw
      obtain rfl : w = 0 := Option.some_injective _ hw
      decide
    · unfold ClosedUnder
      decide
  · intro x hx
    have h0 : 0 ∈ closure_from_targets dupNameCircuit [some 0] :=
      mem_closure_target _ _ 0 (by decide)
    have h1 : 1 ∈ closure_from_targets dupNameCircuit [some 0] :=
      closure_closed_all dupNameCircuit [some 0] 0 h0 1 (by decide)
    fin_cases hx
    · exact h0
    · exact h1

theorem dupName_order : closureOrder dupNameCircuit [some 0] = [0, 1] := by
  unfold closureOrder
  rw [dupName_closure]
  rw [show ({0, 1} : Finset Nat) = [0, 1].toFinset from by decide]
  exact sort_of_sorted [0, 1] (by decide) (by decide)

theorem dupName_names : sortedNames dupNameCircuit [0, 1] = ["x"] := by
  unfold sortedNames
  rw [show List.map dupNameCircuit.nameOf [0, 1] = ["x", "x"] from by decide]
  rw [show (["x", "x"] : List String).toFinset = (["x"] : List String).toFinset
    from by decide]
  exact sort_of_sorted ["x"] (by decide) (sorted_le_of_toList _ (by decide))

/-- C7 counterexample: with two closure wires both named "x" (legal in the
code, which never checks name uniqueness), `simulate` over 1 cycle returns the
single key "x" mapped to 2 values — the claim's "every key maps to exactly
`cycles` values" fails at this input. -/
theorem simulate_output_shape_counterexample :
    simHist dupNameCircuit [some 0] 1 true 10 (fun w => if w = 1 then 3 else 0)
      = some [("x", [3, 3])]
    ∧ ¬ ([("x", [(3 : Int), 3])].all (fun p => p.2.length == 1) = true) := by
  constructor
  · unfold simHist simulate
    rw [dupName_order]
    rw [simulateOn_eval dupNameCircuit [0, 1] 1 true 10
      (fun w => if w = 1 then 3 else 0) ["x"] dupName_names]
    decide
  · decide

theorem memoWitness_closure :
    closure_from_targets memoWitnessCircuit [some 2] = {0, 1, 2} := by
  apply Finset.Subset.antisymm
  · refine closure_subset_of_closed _ _ _ ?_ ?_
    · intro w hw
      simp only [List.mem_singleton] at hw
      obtain rfl : w = 2 := Option.some_injective _ hw
      decide
    · unfold ClosedUnder
      decide
  · intro x hx
    have h2 : 2 ∈ closure_from_targets memoWitnessCircuit [some 2] :=
      mem_closure_target _ _ 2 (by decide)
    have h0 : 0 ∈ closure_from_targets memoWitnessCircuit [some 2] :=
      closure_closed_all memoWitnessCircuit [some 2] 2 h2 0 (by decide)
    have h1 : 1 ∈ closure_from_targets memoWitnessCircuit [some 2] :=
      closure_closed_all memoWitnessCircuit [some 2] 2 h2 1 (by decide)
    fin_cases hx
    · exact h0
    · exact h1
    · exact h2

theorem memoWitness_order : closureOrder memoWitnessCircuit [some 2] = [0, 1, 2] := by
  unfold closureOrder
  rw [memoWitness_closure]
  rw [show ({0, 1, 2} : Finset Nat) = [0, 1, 2].toFinset from by decide]
  exact sort_of_sorted [0, 1, 2] (by decide) (by decide)

theorem memoWitness_names :
    sortedNames memoWitnessCircuit [0, 1, 2] = ["a", "b", "sum"] := by
  unfold sortedNames
  rw [show List.map memoWitnessCircuit.nameOf [0, 1, 2] = ["a", "b", "sum"]
    from by decide]
  exact sort_of_sorted ["a", "b", "sum"] (by decide) (sorted_le_of_toList _ (by decide))

theorem simulate_output_shape_witness :
    ∃ σ', simulate memoWitnessCircuit [some 2] 2 true 10 (fun _ => 0)
        = some ([("a", [1, 1]), ("b", [2, 2]), ("sum", [3, 3])], σ')
      ∧ (("a", [(1 : Int), 1]) : String × List Int).2.length = 2 := by
  have hsim : simulate memoWitnessCircuit [some 2] 2 true 10 (fun _ => 0)
      = simulateOn memoWitnessCircuit [0, 1, 2] 2 true 10 (fun _ => 0) := by
    unfold simulate
    rw [memoWitness_order]
  have hs := hsim.trans
    (simulateOn_eval memoWitnessCircuit [0, 1, 2] 2 true 10 (fun _ => 0)
      ["a", "b", "sum"] memoWitness_names)
  obtain ⟨σ', hs'⟩ : ∃ σ',
      simulate memoWitnessCircuit [some 2] 2 true 10 (fun _ => 0)
        = some ([("a", [1, 1]), ("b", [2, 2]), ("sum", [3, 3])], σ') := by
    rw [hs]
    exact ⟨_, rfl⟩
  have h := simulate_output_shape memoWitnessCircuit [some 2] 2 true 10
    (fun _ => 0) _ σ' hs' (by rw [memoWitness_closure]; decide)
  exact ⟨σ', hs',
    h.2.2.2.1 ("a", [1, 1]) (by simp)⟩

/-! ### Per-phase characterisation lemmas (for claims C1 and C9) -/

theorem evalPhase_good (C : Circuit) (σ : State) (fuel : Nat) :
    ∀ (order : List Nat) (ctx : Cache) (hist : String → List Int)
      (ctx' : Cache) (hist' : String → List Int),
      GoodCache C σ ctx →
      evalPhase C σ fuel order ctx hist = some (ctx', hist') →
      GoodCache C σ ctx' := by
  intro order
  induction order with
  | nil =>
    intro ctx hist ctx' hist' hg h
    simp only [evalPhase, Option.some.injEq, Prod.mk.injEq] at h
    obtain ⟨rfl, -⟩ := h
    exact hg
  | cons w rest ih =>
    intro ctx hist ctx' hist' hg h
    simp only [evalPhase] at h
    cases hv : wireValue C σ fuel w ctx with
    | none => rw [hv] at h; simp at h
    | some p =>
      obtain ⟨v, ctx1⟩ := p
      rw [hv] at h
      dsimp only at h
      exact ih ctx1 _ ctx' hist' (wireValue_sound C σ fuel w ctx v ctx1 hg hv).2.1 h

theorem evalPhase_hist_other (C : Circuit) (σ : State) (fuel : Nat) :
    ∀ (order : List Nat) (ctx : Cache) (hist : String → List Int)
      (ctx' : Cache) (hist' : String → List Int),
      evalPhase C σ fuel order ctx hist = some (ctx', hist') →
      ∀ nm, (∀ w ∈ order, C.nameOf w ≠ nm) → hist' nm = hist nm := by
  intro order
  induction order with
  | nil =>
    intro ctx hist ctx' hist' h nm _
    simp only [evalPhase, Option.some.injEq, Prod.mk.injEq] at h
    obtain ⟨-, rfl⟩ := h
    rfl
  | cons w rest ih =>
    intro ctx hist ctx' hist' h nm hno
    simp only [evalPhase] at h
    cases hv : wireValue C σ fuel w ctx with
    | none => rw [hv] at h; simp at h
    | some p =>
      obtain ⟨v, ctx1⟩ := p
      rw [hv] at h
      dsimp only at h
      have := ih ctx1 _ ctx' hist' h nm
        (fun w2 hw2 => hno w2 (List.mem_cons_of_mem _ hw2))
      rw [this]
      unfold pushHist
      rw [if_neg (fun hc => hno w (List.mem_cons_self _ _) hc.symm)]

theorem evalPhase_hist_prefix (C : Circuit) (σ : State) (fuel : Nat) :
    ∀ (order : List Nat) (ctx : Cache) (hist : String → List Int)
      (ctx' : Cache) (hist' : String → List Int),
      evalPhase C σ fuel order ctx hist = some (ctx', hist') →
      ∀ nm, ∃ t, hist' nm = hist nm ++ t := by
  intro order
  induction order with
  | nil =>
    intro ctx hist ctx' hist' h nm
    simp only [evalPhase, Option.some.injEq, Prod.mk.injEq] at h
    obtain ⟨-, rfl⟩ := h
    exact ⟨[], by simp⟩
  | cons w rest ih =>
    intro ctx hist ctx' hist' h nm
    simp only [evalPhase] at h
    cases hv : wireValue C σ fuel w ctx with
    | none => rw [hv] at h; simp at h
    | some p =>
      obtain ⟨v, ctx1⟩ := p
      rw [hv] at h
      dsimp only at h
      obtain ⟨t, ht⟩ := ih ctx1 _ ctx' hist' h nm
      rw [ht]
      unfold pushHist
      by_cases hc : nm = C.nameOf w
      · rw [if_pos hc, hc]
        exact ⟨[v] ++ t, by simp⟩
      · rw [if_neg hc]
        exact ⟨t, rfl⟩

/-- The value of a uniquely-named wire pushed in step (b): the naive wire
value, appended to its name's history. -/
theorem evalPhase_unique_name_value (C : Circuit) (σ : State) (fuel : Nat)
    (s : Nat) :
    ∀ (order : List Nat) (ctx : Cache) (hist : String → List Int)
      (ctx' : Cache) (hist' : String → List Int),
      GoodCache C σ ctx →
      evalPhase C σ fuel order ctx hist = some (ctx', hist') →
      s ∈ order → order.Nodup →
      (∀ w ∈ order, w ≠ s → C.nameOf w ≠ C.nameOf s) →
      ∃ v g, wireValuePure C σ g s = some v
        ∧ hist' (C.nameOf s) = hist (C.nameOf s) ++ [v] := by
  intro order
  induction order with
  | nil => intro _ _ _ _ _ _ hs; simp at hs
  | cons w rest ih =>
    intro ctx hist ctx' hist' hg h hs hnd honly
    simp only [evalPhase] at h
    cases hv : wireValue C σ fuel w ctx with
    | none => rw [hv] at h; simp at h
    | some p =>
      obtain ⟨v, ctx1⟩ := p
      rw [hv] at h
      dsimp only at h
      by_cases hws : w = s
      · subst hws
        obtain ⟨⟨g, hpure⟩, hgood1, -⟩ := wireValue_sound C σ fuel w ctx v ctx1 hg hv
        refine ⟨v, g, hpure, ?_⟩
        have hrest : hist' (C.nameOf w) = pushHist hist (C.nameOf w) v (C.nameOf w) := by
          refine evalPhase_hist_other C σ fuel rest ctx1 _ ctx' hist' h _ ?_
          intro w2 hw2 hn2
          have hw2s : w2 ≠ w := fun hc => (List.nodup_cons.mp hnd).1 (hc ▸ hw2)
          exact honly w2 (List.mem_cons_of_mem _ hw2) hw2s hn2
        rw [hrest]
        unfold pushHist
        rw [if_pos rfl]
      · have hs' : s ∈ rest := by
          rcases List.mem_cons.mp hs with rfl | h2
          · exact absurd rfl hws
          · exact h2
        have := ih ctx1 (pushHist hist (C.nameOf w) v) ctx' hist'
          (wireValue_sound C σ fuel w ctx v ctx1 hg hv).2.1 h hs'
          (List.nodup_cons.mp hnd).2
          (fun w2 hw2 => honly w2 (List.mem_cons_of_mem _ hw2))
        obtain ⟨v0, g, hpure, hhist⟩ := this
        refine ⟨v0, g, hpure, ?_⟩
        rw [hhist]
        unfold pushHist
        rw [if_neg (fun hc => honly w (List.mem_cons_self _ _) hws hc.symm)]

theorem nextPhase_sound (C : Circuit) (σ : State) (fuel : Nat) :
    ∀ (order : List Nat) (ctx : Cache) (ctx2 : Cache) (ns : List (Nat × Int)),
      GoodCache C σ ctx →
      nextPhase C σ fuel order ctx = some (ctx2, ns) →
      ns.map Prod.fst = order.filter (fun w => (C.nextE w).isSome)
      ∧ ∀ p ∈ ns, ∃ e g, C.nextE p.1 = some e ∧ evalPure C σ g e = some p.2 := by
  intro order
  induction order with
  | nil =>
    intro ctx ctx2 ns hg h
    simp only [nextPhase, Option.some.injEq, Prod.mk.injEq] at h
    obtain ⟨-, rfl⟩ := h
    exact ⟨rfl, by simp⟩
  | cons w rest ih =>
    intro ctx ctx2 ns hg h
    simp only [nextPhase] at h
    cases hne : C.nextE w with
    | none =>
      rw [hne] at h
      obtain ⟨hmap, hvals⟩ := ih ctx ctx2 ns hg h
      constructor
      · rw [hmap, List.filter_cons_of_neg (by simp [hne])]
      · exact hvals
    | some e =>
      rw [hne] at h
      dsimp only at h
      cases hev : evalNode C σ fuel e ctx with
      | none => rw [hev] at h; simp at h
      | some p =>
        obtain ⟨nv, ctx1⟩ := p
        rw [hev] at h
        dsimp only at h
        cases hrest : nextPhase C σ fuel rest ctx1 with
        | none => rw [hrest] at h; simp at h
        | some q =>
          obtain ⟨ctxr, nsr⟩ := q
          rw [hrest] at h
          dsimp only at h
          simp only [Option.some.injEq, Prod.mk.injEq] at h
          obtain ⟨-, rfl⟩ := h
          obtain ⟨⟨g, hpure⟩, hgood1, -⟩ :=
            evalNode_sound C σ fuel e ctx nv ctx1 hg hev
          obtain ⟨hmap, hvals⟩ := ih ctx1 ctxr nsr hgood1 hrest
          constructor
          · rw [List.map_cons, hmap, List.filter_cons_of_pos (by simp [hne])]
          · intro p hp
            rcases List.mem_cons.mp hp with rfl | h2
            · exact ⟨e, g, hne, hpure⟩
            · exact hvals p h2

theorem commitPhase_not_mem (σ : State) :
    ∀ (ns : List (Nat × Int)) (x : Nat), x ∉ ns.map Prod.fst →
      commitPhase σ ns x = σ x := by
  intro ns
  induction ns generalizing σ with
  | nil => intro x _; rfl
  | cons p rest ih =>
    intro x hx
    simp only [List.map_cons, List.mem_cons] at hx
    push_neg at hx
    show commitPhase (updState σ p.1 p.2) rest x = σ x
    rw [ih _ x hx.2]
    unfold updState
    rw [if_neg hx.1]

theorem commitPhase_lookup (σ : State) :
    ∀ (ns : List (Nat × Int)) (w : Nat) (nv : Int),
      (ns.map Prod.fst).Nodup → (w, nv) ∈ ns →
      commitPhase σ ns w = nv := by
  intro ns
  induction ns generalizing σ with
  | nil => intro w nv _ hmem; simp at hmem
  | cons p rest ih =>
    intro w nv hnd hmem
    simp only [List.map_cons, List.nodup_cons] at hnd
    show commitPhase (updState σ p.1 p.2) rest w = nv
    rcases List.mem_cons.mp hmem with heq | h2
    · have hw : p.1 = w := by rw [← heq]
      have hv2 : p.2 = nv := by rw [← heq]
      rw [commitPhase_not_mem _ _ _ (hw ▸ hnd.1)]
      unfold updState
      rw [if_pos hw.symm]
      exact hv2
    · exact ih _ w nv hnd.2 h2

/-- What one cycle does to the committed state: a wire with a registered
definition that is in the enumeration gets its naive next value (computed
against the pre-cycle state); everything else keeps its committed value. -/
theorem simCycle_state_char (C : Circuit) (σ : State) (fuel : Nat)
    (l : List Nat) (hn : l.Nodup) (hist : String → List Int)
    (r : (String → List Int) × State)
    (h : simCycle C l fuel σ hist = some r) (x : Nat) :
    ((x ∉ l ∨ C.nextE x = none) → r.2 x = σ x)
    ∧ (∀ e, x ∈ l → C.nextE x = some e →
        ∃ g v, evalPure C σ g e = some v ∧ r.2 x = v) := by
  unfold simCycle at h
  cases he : evalPhase C σ fuel l [] hist with
  | none => rw [he] at h; simp at h
  | some q =>
    obtain ⟨ctx1, hist1⟩ := q
    rw [he] at h
    dsimp only at h
    cases hnp : nextPhase C σ fuel l ctx1 with
    | none => rw [hnp] at h; simp at h
    | some p =>
      obtain ⟨ctx2, ns⟩ := p
      rw [hnp] at h
      dsimp only at h
      obtain rfl := Option.some_injective _ h
      have hg1 : GoodCache C σ ctx1 :=
        evalPhase_good C σ fuel l [] hist ctx1 hist1 (goodCache_nil C σ) he
      obtain ⟨hmap, hvals⟩ := nextPhase_sound C σ fuel l ctx1 ctx2 ns hg1 hnp
      constructor
      · intro hx
        show commitPhase σ ns x = σ x
        refine commitPhase_not_mem σ ns x ?_
        rw [hmap, List.mem_filter]
        rcases hx with hx | hx
        · exact fun hc => hx hc.1
        · exact fun hc => by
            rw [hx] at hc
            simp at hc
      · intro e hx hne
        have hxmem : x ∈ ns.map Prod.fst := by
          rw [hmap, List.mem_filter]
          exact ⟨hx, by simp [hne]⟩
        obtain ⟨⟨x', nv⟩, hpmem, hfst⟩ := List.mem_map.mp hxmem
        dsimp only at hfst
        subst hfst
        obtain ⟨e', g, hne', hpure⟩ := hvals _ hpmem
        rw [hne] at hne'
        obtain rfl : e = e' := Option.some_injective _ hne'
        refine ⟨g, nv, hpure, ?_⟩
        show commitPhase σ ns x' = nv
        refine commitPhase_lookup σ ns _ nv ?_ hpmem
        rw [hmap]
        exact List.Nodup.filter _ hn

/-- What one cycle does to the history of a uniquely-named wire: it appends
exactly one value, the wire's naive value against the pre-cycle state. -/
theorem simCycle_hist_char (C : Circuit) (σ : State) (fuel : Nat)
    (l : List Nat) (hn : l.Nodup) (s : Nat) (hs : s ∈ l)
    (honly : ∀ w ∈ l, w ≠ s → C.nameOf w ≠ C.nameOf s)
    (hist : String → List Int) (r : (String → List Int) × State)
    (h : simCycle C l fuel σ hist = some r) :
    ∃ v g, wireValuePure C σ g s = some v
      ∧ r.1 (C.nameOf s) = hist (C.nameOf s) ++ [v] := by
  unfold simCycle at h
  cases he : evalPhase C σ fuel l [] hist with
  | none => rw [he] at h; simp at h
  | some q =>
    obtain ⟨ctx1, hist1⟩ := q
    rw [he] at h
    dsimp only at h
    cases hnp : nextPhase C σ fuel l ctx1 with
    | none => rw [hnp] at h; simp at h
    | some p =>
      obtain ⟨ctx2, ns⟩ := p
      rw [hnp] at h
      dsimp only at h
      obtain rfl := Option.some_injective _ h
      obtain ⟨v, g, hpure, hhist⟩ := evalPhase_unique_name_value C σ fuel s l
        [] hist ctx1 hist1 (goodCache_nil C σ) he hs hn honly
      exact ⟨v, g, hpure, hhist⟩

/-! ### Loop-level lemmas and claim C1 -/

theorem simLoop_succ_split (C : Circuit) (order : List Nat) (fuel : Nat) :
    ∀ (n : Nat) (σ : State) (hist : String → List Int),
      simLoop C order fuel (n + 1) σ hist
        = match simLoop C order fuel n σ hist with
          | none => none
          | some (h', σ') => simCycle C order fuel σ' h' := by
  intro n
  induction n with
  | zero =>
    intro σ hist
    cases hc : simCycle C order fuel σ hist with
    | none => simp [simLoop, hc]
    | some p =>
      obtain ⟨h1, σ1⟩ := p
      simp [simLoop, hc]
  | succ n ih =>
    intro σ hist
    cases hc : simCycle C order fuel σ hist with
    | none => simp [simLoop, hc]
    | some p =>
      obtain ⟨h1, σ1⟩ := p
      have hL : simLoop C order fuel (n + 1 + 1) σ hist
          = simLoop C order fuel (n + 1) σ1 h1 := by
        simp only [simLoop, hc]
      have hR : simLoop C order fuel (n + 1) σ hist
          = simLoop C order fuel n σ1 h1 := by
        simp only [simLoop, hc]
      rw [hL, hR]
      exact ih σ1 h1

theorem simCycle_hist_prefix (C : Circuit) (σ : State) (fuel : Nat)
    (order : List Nat) (hist : String → List Int)
    (r : (String → List Int) × State)
    (h : simCycle C order fuel σ hist = some r) :
    ∀ nm, ∃ t, r.1 nm = hist nm ++ t := by
  unfold simCycle at h
  cases he : evalPhase C σ fuel order [] hist with
  | none => rw [he] at h; simp at h
  | some q =>
    obtain ⟨ctx1, hist1⟩ := q
    rw [he] at h
    dsimp only at h
    cases hnp : nextPhase C σ fuel order ctx1 with
    | none => rw [hnp] at h; simp at h
    | some p =>
      obtain ⟨ctx2, ns⟩ := p
      rw [hnp] at h
      dsimp only at h
      obtain rfl := Option.some_injective _ h
      exact evalPhase_hist_prefix C σ fuel order [] hist ctx1 hist1 he

theorem simLoop_hist_prefix (C : Circuit) (order : List Nat) (fuel : Nat) :
    ∀ (n : Nat) (σ : State) (hist hist' : String → List Int) (σN : State),
      simLoop C order fuel n σ hist = some (hist', σN) →
      ∀ nm, ∃ t, hist' nm = hist nm ++ t := by
  intro n
  induction n with
  | zero =>
    intro σ hist hist' σN h nm
    simp only [simLoop, Option.some.injEq, Prod.mk.injEq] at h
    obtain ⟨rfl, -⟩ := h
    exact ⟨[], by simp⟩
  | succ n ih =>
    intro σ hist hist' σN h nm
    simp only [simLoop] at h
    cases hc : simCycle C order fuel σ hist with
    | none => rw [hc] at h; simp at h
    | some p =>
      obtain ⟨h1, σ1⟩ := p
      rw [hc] at h
      dsimp only at h
      obtain ⟨t1, ht1⟩ := simCycle_hist_prefix C σ fuel order hist (h1, σ1) hc nm
      have ht1' : h1 nm = hist nm ++ t1 := ht1
      obtain ⟨t2, ht2⟩ := ih σ1 h1 hist' σN h nm
      exact ⟨t1 ++ t2, by rw [ht2, ht1']; simp⟩

/-- The `k`-th entry of a uniquely-named wire's history is its naive value
against the committed state at the start of cycle `k`. -/
theorem simLoop_index_char (C : Circuit) (order : List Nat) (fuel : Nat)
    (hn : order.Nodup) (s : Nat) (hs : s ∈ order)
    (honly : ∀ w ∈ order, w ≠ s → C.nameOf w ≠ C.nameOf s) :
    ∀ (n : Nat) (σ : State) (hist hist' : String → List Int) (σN : State),
      simLoop C order fuel n σ hist = some (hist', σN) →
      ∀ k, k < n →
      ∃ r1 σk v g, simLoop C order fuel k σ hist = some (r1, σk)
        ∧ wireValuePure C σk g s = some v
        ∧ (hist' (C.nameOf s))[(hist (C.nameOf s)).length + k]? = some v := by
  intro n
  induction n with
  | zero => intro σ hist hist' σN h k hk; omega
  | succ n ih =>
    intro σ hist hist' σN h k hk
    have h0 := h
    simp only [simLoop] at h
    cases hc : simCycle C order fuel σ hist with
    | none => rw [hc] at h; simp at h
    | some p =>
      obtain ⟨h1, σ1⟩ := p
      rw [hc] at h
      dsimp only at h
      obtain ⟨v, g, hpure, hhist1⟩ :=
        simCycle_hist_char C σ fuel order hn s hs honly hist (h1, σ1) hc
      have hhist1' : h1 (C.nameOf s) = hist (C.nameOf s) ++ [v] := hhist1
      cases k with
      | zero =>
        refine ⟨hist, σ, v, g, rfl, hpure, ?_⟩
        obtain ⟨t, ht⟩ := simLoop_hist_prefix C order fuel n σ1 h1 hist' σN h
          (C.nameOf s)
        rw [ht, hhist1']
        rw [Nat.add_zero, List.append_assoc]
        rw [List.getElem?_append_right (le_refl _)]
        simp
      | succ j =>
        obtain ⟨r1, σk, v2, g2, hloop, hpure2, hidx⟩ :=
          ih σ1 h1 hist' σN h j (by omega)
        refine ⟨r1, σk, v2, g2, ?_, hpure2, ?_⟩
        · simp only [simLoop, hc]
          exact hloop
        · rw [hhist1'] at hidx
          rw [List.length_append, List.length_singleton] at hidx
          rw [show (hist (C.nameOf s)).length + (j + 1)
            = (hist (C.nameOf s)).length + 1 + j from by omega]
          exact hidx

theorem lookup_map_self (f : String → List Int) :
    ∀ (l : List String) (nm : String), nm ∈ l →
      (l.map (fun x => (x, f x))).lookup nm = some (f nm) := by
  intro l
  induction l with
  | nil => intro nm h; simp at h
  | cons x rest ih =>
    intro nm hnm
    simp only [List.map_cons, List.lookup]
    by_cases hx : nm = x
    · have hb : (nm == x) = true := beq_iff_eq.mpr hx
      rw [hb]
      subst hx
      rfl
    · have hb : (nm == x) = false := beq_eq_false_iff_ne.mpr hx
      rw [hb]
      exact ih nm (by
        rcases List.mem_cons.mp hnm with h | h
        · exact absurd h hx
        · exact h)

/-- **C1 (amended).** For every circuit with distinct wire names and no
combinational cycles, and every signal `s` in the closure that has a
registered definition *and no combinational definition*, in the history
returned by `simulate`, `history[s][i+1]` equals `s`'s registered root
evaluated (naively, equivalently: in cycle `i`'s shared evaluation context,
whose cached entries are exactly the naive combinational values — see C5)
against the committed state of cycle `i`; and all registered next-values of a
cycle are committed as one batch against that same pre-update state — the
committed value at the start of cycle `i+1` equals that same evaluation, and
no registered evaluation of cycle `i` observes another signal's cycle-`i`
update, every one being a pure function of the cycle-`i` committed state.
(The restriction to signals without a combinational definition is forced by
the counterexample below: for a signal with both definitions the history
shows the combinational value, not the registered one.) -/
theorem registered_history_next_cycle (C : Circuit) (targets : List (Option Nat))
    (cycles : Nat) (restoreState : Bool) (fuel : Nat) (σ0 : State)
    (out : List (String × List Int)) (σ' : State)
    (_hacyc : CombAcyclic C)
    (hnames : ∀ w ∈ closure_from_targets C targets,
      ∀ w' ∈ closure_from_targets C targets, C.nameOf w = C.nameOf w' → w = w')
    (s : Nat) (en : Expr)
    (hs : s ∈ closure_from_targets C targets)
    (hnext : C.nextE s = some en) (hcomb : C.comb s = none)
    (i : Nat) (hcyc : i + 1 < cycles)
    (h : simulate C targets cycles restoreState fuel σ0 = some (out, σ')) :
    ∃ σi σi1 v g hl,
      (simLoop C (closureOrder C targets) fuel i σ0 (fun _ => [])).map
        Prod.snd = some σi
      ∧ (simLoop C (closureOrder C targets) fuel (i + 1) σ0 (fun _ => [])).map
        Prod.snd = some σi1
      ∧ evalPure C σi g en = some v
      ∧ σi1 s = v
      ∧ out.lookup (C.nameOf s) = some hl
      ∧ hl[i + 1]? = some v := by
  have hnord : (closureOrder C targets).Nodup := Finset.sort_nodup _ _
  have hsord : s ∈ closureOrder C targets := (Finset.mem_sort _).mpr hs
  have honly : ∀ w ∈ closureOrder C targets, w ≠ s →
      C.nameOf w ≠ C.nameOf s := by
    intro w hw hws hc
    exact hws (hnames w ((Finset.mem_sort _).mp hw) s hs hc)
  unfold simulate simulateOn at h
  cases hl0 : simLoop C (closureOrder C targets) fuel cycles σ0 (fun _ => []) with
  | none => rw [hl0] at h; simp at h
  | some p =>
    obtain ⟨hist, σN⟩ := p
    rw [hl0] at h
    dsimp only at h
    simp only [Option.some.injEq, Prod.mk.injEq] at h
    obtain ⟨rfl, -⟩ := h
    obtain ⟨r1, σi1, v, g, hloop1, hpure1, hidx⟩ :=
      simLoop_index_char C (closureOrder C targets) fuel hnord s hsord honly
        cycles σ0 (fun _ => []) hist σN hl0 (i + 1) hcyc
    have hv : v = σi1 s := by
      unfold wireValuePure at hpure1
      rw [hcomb] at hpure1
      exact (Option.some_injective _ hpure1).symm
    rw [simLoop_succ_split] at hloop1
    cases hli : simLoop C (closureOrder C targets) fuel i σ0 (fun _ => []) with
    | none => rw [hli] at hloop1; simp at hloop1
    | some q =>
      obtain ⟨ri, σi⟩ := q
      rw [hli] at hloop1
      dsimp only at hloop1
      obtain ⟨gi, vi, hpure_i, hstate⟩ :=
        (simCycle_state_char C σi fuel (closureOrder C targets) hnord ri
          (r1, σi1) hloop1 s).2 en hsord hnext
      refine ⟨σi, σi1, vi, gi, hist (C.nameOf s), ?_, ?_, hpure_i, hstate, ?_, ?_⟩
      · rfl
      · rw [simLoop_succ_split, hli]
        dsimp only
        rw [hloop1]
        rfl
      · refine lookup_map_self hist
          (sortedNames C (closureOrder C targets)) (C.nameOf s) ?_
        unfold sortedNames
        rw [Finset.mem_sort, List.mem_toFinset]
        exact List.mem_map.mpr ⟨s, hsord, rfl⟩
      · have hveq : v = vi := by
          rw [hv]
          exact hstate
        rw [← hveq]
        simpa using hidx

/-- A wire with BOTH a combinational and a registered definition
(`s = 5; s << 7;`), legal and meaningful per the source. -/
def bothDefsCircuit : Circuit :=
  ⟨[(0, ⟨"s", some (.const 5), some (.const 7)⟩)]⟩

theorem bothDefs_closure : closure_from_targets bothDefsCircuit [some 0] = {0} := by
  apply Finset.Subset.antisymm
  · refine closure_subset_of_closed _ _ _ ?_ ?_
    · intro w hw
      simp only [List.mem_singleton] at hw
      obtain rfl : w = 0 := Option.some_injective _ hw
      decide
    · unfold ClosedUnder
      decide
  · intro x hx
    simp only [Finset.mem_singleton] at hx
    subst hx
    exact mem_closure_target _ _ 0 (by decide)

theorem bothDefs_order : closureOrder bothDefsCircuit [some 0] = [0] := by
  unfold closureOrder
  rw [bothDefs_closure]
  rw [show ({0} : Finset Nat) = [0].toFinset from by decide]
  exact sort_of_sorted [0] (by decide) (by decide)

theorem bothDefs_names : sortedNames bothDefsCircuit [0] = ["s"] := by
  unfold sortedNames
  rw [show List.map bothDefsCircuit.nameOf [0] = ["s"] from by decide]
  exact sort_of_sorted ["s"] (by decide) (sorted_le_of_toList _ (by decide))

/-- C1 counterexample: the signal `s` of `bothDefsCircuit` is in the closure
and has a registered definition (root `const 7`), yet `history["s"][1] = 5`
(its combinational value), not the registered root's value `7` evaluated
against cycle 0's state — the claim as stated fails for a signal that has
both definitions. -/
theorem registered_history_counterexample :
    bothDefsCircuit.nextE 0 = some (.const 7)
    ∧ bothDefsCircuit.nameOf 0 = "s"
    ∧ simHist bothDefsCircuit [some 0] 2 true 10 (fun _ => 0)
        = some [("s", [5, 5])]
    ∧ evalPure bothDefsCircuit (fun _ => 0) 1 (.const 7) = some 7
    ∧ ([(5 : Int), 5][1]? = some 5)
    ∧ (5 : Int) ≠ 7 := by
  refine ⟨rfl, rfl, ?_, by decide, by decide, by decide⟩
  unfold simHist simulate
  rw [bothDefs_order]
  rw [simulateOn_eval bothDefsCircuit [0] 2 true 10 (fun _ => 0) ["s"]
    bothDefs_names]
  decide

theorem restoreWitness_acyclic : CombAcyclic restoreWitnessCircuit := by
  refine ⟨fun w => w, ?_⟩
  intro w e hc
  exfalso
  have hdom : w ∈ restoreWitnessCircuit.dom := by
    by_contra hnd
    rw [Circuit.comb_eq_none _ _ hnd] at hc
    simp at hc
  have hd : restoreWitnessCircuit.dom = {0} := by decide
  rw [hd] at hdom
  fin_cases hdom
  exact Option.noConfusion hc

theorem registered_history_next_cycle_witness :
    ∃ σi σi1 v g hl,
      (simLoop restoreWitnessCircuit
        (closureOrder restoreWitnessCircuit [some 0]) 10 1 (fun _ => 0)
        (fun _ => [])).map Prod.snd = some σi
      ∧ (simLoop restoreWitnessCircuit
        (closureOrder restoreWitnessCircuit [some 0]) 10 (1 + 1) (fun _ => 0)
        (fun _ => [])).map Prod.snd = some σi1
      ∧ evalPure restoreWitnessCircuit σi g
          (.binary .add (.wireRef 0) (.const 1)) = some v
      ∧ σi1 0 = v
      ∧ ([("acc", [0, 1, 2])] : List (String × List Int)).lookup
          (restoreWitnessCircuit.nameOf 0) = some hl
      ∧ hl[1 + 1]? = some v := by
  have hsim : simulate restoreWitnessCircuit [some 0] 3 true 10 (fun _ => 0)
      = simulateOn restoreWitnessCircuit [0] 3 true 10 (fun _ => 0) := by
    unfold simulate
    rw [restoreWitness_order]
  have hs := hsim.trans
    (simulateOn_eval restoreWitnessCircuit [0] 3 true 10 (fun _ => 0) ["acc"]
      restoreWitness_names)
  obtain ⟨σ', hs'⟩ : ∃ σ',
      simulate restoreWitnessCircuit [some 0] 3 true 10 (fun _ => 0)
        = some ([("acc", [0, 1, 2])], σ') := by
    rw [hs]
    exact ⟨_, rfl⟩
  exact registered_history_next_cycle restoreWitnessCircuit [some 0] 3 true
    10 (fun _ => 0) _ σ' restoreWitness_acyclic
    (by rw [restoreWitness_closure]; decide)
    0 (.binary .add (.wireRef 0) (.const 1))
    (restoreWitness_closure ▸ Finset.mem_singleton_self 0)
    rfl rfl 1 (by omega) hs'

/-! ### Claim C9: order independence of the closure enumeration -/

theorem foldl_updState_not_mem (g : Nat → Int) :
    ∀ (l : List Nat) (σ : State) (w : Nat), w ∉ l →
      (l.foldl (fun σ u => updState σ u (g u)) σ) w = σ w := by
  intro l
  induction l with
  | nil => intro σ w _; rfl
  | cons x xs ih =>
    intro σ w hx
    simp only [List.foldl_cons]
    rw [ih _ w (fun hc => hx (List.mem_cons_of_mem _ hc))]
    unfold updState
    rw [if_neg (fun hc => hx (List.mem_cons.mpr (Or.inl hc)))]

/-- A cycle leaves untouched the history of every name not carried by a wire
of the enumeration. -/
theorem simCycle_hist_other (C : Circuit) (σ : State) (fuel : Nat)
    (order : List Nat) (hist : String → List Int)
    (r : (String → List Int) × State)
    (h : simCycle C order fuel σ hist = some r)
    (nm : String) (hno : ∀ w ∈ order, C.nameOf w ≠ nm) :
    r.1 nm = hist nm := by
  unfold simCycle at h
  cases he : evalPhase C σ fuel order [] hist with
  | none => rw [he] at h; simp at h
  | some q =>
    obtain ⟨ctx1, hist1⟩ := q
    rw [he] at h
    dsimp only at h
    cases hnp : nextPhase C σ fuel order ctx1 with
    | none => rw [hnp] at h; simp at h
    | some p =>
      obtain ⟨ctx2, ns⟩ := p
      rw [hnp] at h
      dsimp only at h
      obtain rfl := Option.some_injective _ h
      exact evalPhase_hist_other C σ fuel order [] hist ctx1 hist1 he nm hno

/-- Two enumerations of the same wire set (no duplicates, pairwise-distinct
names) produce the same histories and the same committed state after one
cycle, even with unrelated fuel bounds. -/
theorem simCycle_order_eq (C : Circuit) (l1 l2 : List Nat)
    (hset : l1.toFinset = l2.toFinset) (hn1 : l1.Nodup) (hn2 : l2.Nodup)
    (hnames : ∀ w ∈ l1, ∀ w' ∈ l1, C.nameOf w = C.nameOf w' → w = w')
    (σ : State) (fuel1 fuel2 : Nat) (hist : String → List Int)
    (r1 r2 : (String → List Int) × State)
    (h1 : simCycle C l1 fuel1 σ hist = some r1)
    (h2 : simCycle C l2 fuel2 σ hist = some r2) :
    r1 = r2 := by
  have hmem : ∀ x, x ∈ l1 ↔ x ∈ l2 := by
    intro x
    rw [← List.mem_toFinset, hset, List.mem_toFinset]
  have hh : r1.1 = r2.1 := by
    funext nm
    by_cases hex : ∃ s ∈ l1, C.nameOf s = nm
    · obtain ⟨s, hsl, rfl⟩ := hex
      have honly1 : ∀ w ∈ l1, w ≠ s → C.nameOf w ≠ C.nameOf s :=
        fun w hw hne hc => hne (hnames w hw s hsl hc)
      have honly2 : ∀ w ∈ l2, w ≠ s → C.nameOf w ≠ C.nameOf s :=
        fun w hw hne hc => hne (hnames w ((hmem w).mpr hw) s hsl hc)
      obtain ⟨v1, g1, hp1, hh1⟩ :=
        simCycle_hist_char C σ fuel1 l1 hn1 s hsl honly1 hist r1 h1
      obtain ⟨v2, g2, hp2, hh2⟩ :=
        simCycle_hist_char C σ fuel2 l2 hn2 s ((hmem s).mp hsl) honly2 hist r2 h2
      rw [hh1, hh2, wireValuePure_det C σ g1 g2 s v1 v2 hp1 hp2]
    · push_neg at hex
      have hno2 : ∀ w ∈ l2, C.nameOf w ≠ nm := fun w hw => hex w ((hmem w).mpr hw)
      rw [simCycle_hist_other C σ fuel1 l1 hist r1 h1 nm hex,
        simCycle_hist_other C σ fuel2 l2 hist r2 h2 nm hno2]
  have hs : r1.2 = r2.2 := by
    funext x
    obtain ⟨hk1, hv1⟩ := simCycle_state_char C σ fuel1 l1 hn1 hist r1 h1 x
    obtain ⟨hk2, hv2⟩ := simCycle_state_char C σ fuel2 l2 hn2 hist r2 h2 x
    by_cases hxl : x ∈ l1
    · cases hne : C.nextE x with
      | none => rw [hk1 (Or.inr hne), hk2 (Or.inr hne)]
      | some e =>
        obtain ⟨g1, v1, hp1, hr1⟩ := hv1 e hxl hne
        obtain ⟨g2, v2, hp2, hr2⟩ := hv2 e ((hmem x).mp hxl) hne
        rw [hr1, hr2, evalPure_det C σ g1 g2 e v1 v2 hp1 hp2]
    · rw [hk1 (Or.inl hxl), hk2 (Or.inl (fun hc => hxl ((hmem x).mpr hc)))]
  calc r1 = (r1.1, r1.2) := rfl
    _ = (r2.1, r2.2) := by rw [hh, hs]
    _ = r2 := rfl

/-- The whole cycle loop is insensitive to the enumeration order. -/
theorem simLoop_order_eq (C : Circuit) (l1 l2 : List Nat)
    (hset : l1.toFinset = l2.toFinset) (hn1 : l1.Nodup) (hn2 : l2.Nodup)
    (hnames : ∀ w ∈ l1, ∀ w' ∈ l1, C.nameOf w = C.nameOf w' → w = w')
    (fuel1 fuel2 : Nat) :
    ∀ (n : Nat) (σ : State) (hist : String → List Int)
      (r1 r2 : (String → List Int) × State),
      simLoop C l1 fuel1 n σ hist = some r1 →
      simLoop C l2 fuel2 n σ hist = some r2 →
      r1 = r2 := by
  intro n
  induction n with
  | zero =>
    intro σ hist r1 r2 h1 h2
    simp only [simLoop, Option.some.injEq] at h1 h2
    rw [← h1, ← h2]
  | succ n ih =>
    intro σ hist r1 r2 h1 h2
    simp only [simLoop] at h1 h2
    cases hc1 : simCycle C l1 fuel1 σ hist with
    | none => rw [hc1] at h1; simp at h1
    | some p1 =>
      obtain ⟨ha1, σa1⟩ := p1
      rw [hc1] at h1
      dsimp only at h1
      cases hc2 : simCycle C l2 fuel2 σ hist with
      | none => rw [hc2] at h2; simp at h2
      | some p2 =>
        obtain ⟨ha2, σa2⟩ := p2
        rw [hc2] at h2
        dsimp only at h2
        have heq := simCycle_order_eq C l1 l2 hset hn1 hn2 hnames σ fuel1 fuel2
          hist _ _ hc1 hc2
        have heqh : ha1 = ha2 := congrArg Prod.fst heq
        have heqs : σa1 = σa2 := congrArg Prod.snd heq
        subst heqh
        subst heqs
        exact ih σa1 ha1 r1 r2 h1 h2

/-- **C9.** For every circuit whose closure members carry pairwise-distinct
names, the result of `simulate` — the returned histories and the final
committed values, with or without `restore_state` — is independent of the
enumeration order of the closure set used by the per-cycle loops: any two
duplicate-free enumerations `l1`, `l2` of the dependency closure (and any
two sufficient recursion budgets) whose runs return produce identical
output. -/
theorem simulate_order_independent (C : Circuit) (targets : List (Option Nat))
    (l1 l2 : List Nat) (cycles : Nat) (restoreState : Bool)
    (fuel1 fuel2 : Nat) (σ0 : State)
    (hcl1 : l1.toFinset = closure_from_targets C targets)
    (hcl2 : l2.toFinset = closure_from_targets C targets)
    (hn1 : l1.Nodup) (hn2 : l2.Nodup)
    (hnames : ∀ w ∈ closure_from_targets C targets,
      ∀ w' ∈ closure_from_targets C targets, C.nameOf w = C.nameOf w' → w = w')
    (r1 r2 : List (String × List Int) × State)
    (h1 : simulateOn C l1 cycles restoreState fuel1 σ0 = some r1)
    (h2 : simulateOn C l2 cycles restoreState fuel2 σ0 = some r2) :
    r1 = r2 := by
  have hset : l1.toFinset = l2.toFinset := hcl1.trans hcl2.symm
  have hmem : ∀ x, x ∈ l1 ↔ x ∈ l2 := by
    intro x
    rw [← List.mem_toFinset, hset, List.mem_toFinset]
  have hnames1 : ∀ w ∈ l1, ∀ w' ∈ l1, C.nameOf w = C.nameOf w' → w = w' := by
    intro w hw w' hw' hc
    exact hnames w (hcl1 ▸ List.mem_toFinset.mpr hw)
      w' (hcl1 ▸ List.mem_toFinset.mpr hw') hc
  unfold simulateOn at h1 h2
  cases hl1 : simLoop C l1 fuel1 cycles σ0 (fun _ => []) with
  | none => rw [hl1] at h1; simp at h1
  | some p1 =>
    obtain ⟨hist1, σN1⟩ := p1
    rw [hl1] at h1
    dsimp only at h1
    cases hl2 : simLoop C l2 fuel2 cycles σ0 (fun _ => []) with
    | none => rw [hl2] at h2; simp at h2
    | some p2 =>
      obtain ⟨hist2, σN2⟩ := p2
      rw [hl2] at h2
      dsimp only at h2
      have heq := simLoop_order_eq C l1 l2 hset hn1 hn2 hnames1 fuel1 fuel2
        cycles σ0 (fun _ => []) _ _ hl1 hl2
      have heqh : hist1 = hist2 := congrArg Prod.fst heq
      have heqs : σN1 = σN2 := congrArg Prod.snd heq
      subst heqh
      subst heqs
      obtain rfl := Option.some_injective _ h1
      obtain rfl := Option.some_injective _ h2
      have hsn : sortedNames C l1 = sortedNames C l2 := by
        unfold sortedNames
        congr 1
        ext x
        simp only [List.mem_toFinset, List.mem_map]
        constructor
        · rintro ⟨w, hw, rfl⟩
          exact ⟨w, (hmem w).mp hw, rfl⟩
        · rintro ⟨w, hw, rfl⟩
          exact ⟨w, (hmem w).mpr hw, rfl⟩
      rw [Prod.mk.injEq]
      constructor
      · rw [hsn]
      · cases restoreState with
        | false => simp
        | true =>
          rw [if_pos rfl, if_pos rfl]
          funext w
          by_cases hw : w ∈ l1
          · rw [foldl_updState_mem σ0 l1 _ w hw,
              foldl_updState_mem σ0 l2 _ w ((hmem w).mp hw)]
          · rw [foldl_updState_not_mem σ0 l1 _ w hw,
              foldl_updState_not_mem σ0 l2 _ w (fun hc => hw ((hmem w).mpr hc))]

theorem memoWitness_names_rev :
    sortedNames memoWitnessCircuit [2, 1, 0] = ["a", "b", "sum"] := by
  unfold sortedNames
  rw [show List.map memoWitnessCircuit.nameOf [2, 1, 0] = ["sum", "b", "a"]
    from by decide]
  rw [show (["sum", "b", "a"] : List String).toFinset
    = (["a", "b", "sum"] : List String).toFinset from by decide]
  exact sort_of_sorted ["a", "b", "sum"] (by decide) (sorted_le_of_toList _ (by decide))

theorem simulate_order_independent_witness :
    ∃ r1 r2,
      simulateOn memoWitnessCircuit [0, 1, 2] 2 false 10 (fun _ => 0) = some r1
      ∧ simulateOn memoWitnessCircuit [2, 1, 0] 2 false 10 (fun _ => 0) = some r2
      ∧ r1 = r2 := by
  obtain ⟨r1, h1⟩ : ∃ r1,
      simulateOn memoWitnessCircuit [0, 1, 2] 2 false 10 (fun _ => 0)
        = some r1 := by
    rw [simulateOn_eval memoWitnessCircuit [0, 1, 2] 2 false 10 (fun _ => 0)
      ["a", "b", "sum"] memoWitness_names]
    exact ⟨_, rfl⟩
  obtain ⟨r2, h2⟩ : ∃ r2,
      simulateOn memoWitnessCircuit [2, 1, 0] 2 false 10 (fun _ => 0)
        = some r2 := by
    rw [simulateOn_eval memoWitnessCircuit [2, 1, 0] 2 false 10 (fun _ => 0)
      ["a", "b", "sum"] memoWitness_names_rev]
    exact ⟨_, rfl⟩
  exact ⟨r1, r2, h1, h2,
    simulate_order_independent memoWitnessCircuit [some 2] [0, 1, 2] [2, 1, 0]
      2 false 10 10 (fun _ => 0)
      (by rw [memoWitness_closure]; decide)
      (by rw [memoWitness_closure]; decide)
      (by decide) (by decide)
      (by rw [memoWitness_closure]; decide)
      r1 r2 h1 h2⟩

end CircuitSim